import Mathlib

/-!
Shallow embedding of the Sanchara event repository core
(`backend/app/models/event.py`, `backend/app/repositories/events.py`,
`backend/app/repositories/in_memory.py`, `backend/app/services/event_service.py`)
and proofs about the claims of its specification.

Conventions of the embedding:
* Calendar dates are records of numerals (`PDate`); comparison of the
  ISO-8601 strings stored by the Mongo adapter coincides with comparison
  of the numeral triples for calendar dates, so both adapters compare
  dates through `PDate.key`.
* Python floats are embedded as rationals (`ℚ`); Python's `round`
  (banker's rounding) is embedded as round-half-to-even on rationals.
* Wall-clock timestamps are embedded as a logical clock (`ℕ`) threaded
  through the state and incremented once per operation.
* Mongo `ObjectId`s and the in-memory adapter's UUIDs are both embedded
  as naturals drawn from a per-state counter; claims compare results
  with identifiers excluded.
-/

namespace Sanchara

/-! ### Dates -/

/-- A calendar date, as `datetime.date` (year, month, day). -/
structure PDate where
  year : ℕ
  month : ℕ
  day : ℕ
deriving DecidableEq

namespace PDate

/-- Injective linearisation of a calendar date; comparing keys is the same
as comparing dates (and the same as comparing their ISO-8601 strings). -/
def key (d : PDate) : ℕ := (d.year * 13 + d.month) * 32 + d.day

/-- `d₁ <= d₂` on dates. -/
def ble (d₁ d₂ : PDate) : Bool := d₁.key ≤ d₂.key

/-- `d₁ < d₂` on dates. -/
def blt (d₁ d₂ : PDate) : Bool := d₁.key < d₂.key

/-- A calendar-valid date (what `datetime.date` can hold: months 1..12,
days 1..31). -/
def valid (d : PDate) : Bool := 1 ≤ d.month && d.month ≤ 12 && 1 ≤ d.day && d.day ≤ 31

end PDate

/-! ### Rounding: Python `round(x, 2)` on rationals -/

/-- Python's builtin `round` to an integer: round-half-to-even. -/
def pyRound (q : ℚ) : ℤ :=
  if q - ⌊q⌋ = 1 / 2 then (if ⌊q⌋ % 2 = 0 then ⌊q⌋ else ⌊q⌋ + 1) else round q

/-- Python's `round(x, 2)`. -/
def rnd2 (q : ℚ) : ℚ := (pyRound (q * 100) : ℚ) / 100

/-! ### Enums (`app/models/event.py`) -/

/-- `EventStatus`. -/
inductive EventStatus where
  | planned
  | inProgress
  | completed
deriving DecidableEq

/-- `EventPriority`. -/
inductive EventPriority where
  | low
  | medium
  | high
  | critical
deriving DecidableEq

/-- `_PRIORITY_RANK` (`app/repositories/events.py` and `in_memory.py`). -/
def PRIORITY_RANK : EventPriority → ℕ
  | .low => 1
  | .medium => 2
  | .high => 3
  | .critical => 4

/-! ### Payloads (`EventCreate`, `EventUpdate`) -/

/-- `EventCreate` (= `EventBase`): the validated create payload. -/
structure EventCreate where
  user_id : String := "demo-user"
  title : String
  category : String
  start_date : PDate
  end_date : Option PDate := none
  description : Option String := none
  notes : Option String := none
  status : EventStatus := .planned
  priority : EventPriority := .medium
  timeline_phase : Option String := none
  is_financial : Bool := false
  estimated_cost : Option ℚ := none
  savings_target : Option ℚ := none
  actual_cost : Option ℚ := none
  amount_saved : Option ℚ := none
  linked_event_ids : List String := []
deriving DecidableEq

/-- `EventBase.validate_dates`: the construction succeeds unless
`end_date` is present and earlier than `start_date`. -/
def datesOk (start_date : PDate) (end_date : Option PDate) : Bool :=
  match end_date with
  | none => true
  | some e => !(e.key < start_date.key)

/-- Pydantic validation of an `EventCreate` payload: per-field bounds
(`Field` constraints of `EventBase`) and then the `validate_dates`
model validator.  Returns the offending field's error. -/
def EventCreate.parse (p : EventCreate) : Except String EventCreate :=
  if !(1 ≤ p.user_id.length && p.user_id.length ≤ 120) then .error "user_id" else
  if !(1 ≤ p.title.length && p.title.length ≤ 200) then .error "title" else
  if !(1 ≤ p.category.length && p.category.length ≤ 100) then .error "category" else
  if !(p.description.all fun s => s.length ≤ 2000) then .error "description" else
  if !(p.notes.all fun s => s.length ≤ 4000) then .error "notes" else
  if !(p.timeline_phase.all fun s => s.length ≤ 120) then .error "timeline_phase" else
  if !(p.estimated_cost.all fun q => 0 ≤ q) then .error "estimated_cost" else
  if !(p.savings_target.all fun q => 0 ≤ q) then .error "savings_target" else
  if !(p.actual_cost.all fun q => 0 ≤ q) then .error "actual_cost" else
  if !(p.amount_saved.all fun q => 0 ≤ q) then .error "amount_saved" else
  if !(datesOk p.start_date p.end_date) then
    .error "end_date cannot be earlier than start_date"
  else .ok p

/-- `EventUpdate`: a partial update.  `none` means the field was not
supplied.  For the fields whose stored value is itself optional, the
payload value is `Option (Option _)`: `some none` is an explicitly
supplied null (pydantic's `exclude_unset` keeps it).  Supplying an
explicit null for one of the non-optional stored fields (title,
category, start_date, status, priority, is_financial, linked_event_ids)
is a degenerate request that is not modelled. -/
structure EventUpdate where
  title : Option String := none
  category : Option String := none
  start_date : Option PDate := none
  end_date : Option (Option PDate) := none
  description : Option (Option String) := none
  notes : Option (Option String) := none
  status : Option EventStatus := none
  priority : Option EventPriority := none
  timeline_phase : Option (Option String) := none
  is_financial : Option Bool := none
  estimated_cost : Option (Option ℚ) := none
  savings_target : Option (Option ℚ) := none
  actual_cost : Option (Option ℚ) := none
  amount_saved : Option (Option ℚ) := none
  linked_event_ids : Option (List String) := none
deriving DecidableEq

/-- `payload.model_dump(exclude_unset=True)` is empty: no field of the
partial update was supplied. -/
def EventUpdate.isEmpty (u : EventUpdate) : Bool :=
  u.title == none && u.category == none && u.start_date == none &&
  u.end_date == none && u.description == none && u.notes == none &&
  u.status == none && u.priority == none && u.timeline_phase == none &&
  u.is_financial == none && u.estimated_cost == none &&
  u.savings_target == none && u.actual_cost == none &&
  u.amount_saved == none && u.linked_event_ids == none

/-! ### The stored entity (`Event`) -/

/-- The stored `Event` entity: `EventBase` fields plus server-assigned
identifier, timestamps and the soft-delete tombstone. -/
structure StoredEvent where
  id : ℕ
  user_id : String
  title : String
  category : String
  start_date : PDate
  end_date : Option PDate
  description : Option String
  notes : Option String
  status : EventStatus
  priority : EventPriority
  timeline_phase : Option String
  is_financial : Bool
  estimated_cost : Option ℚ
  savings_target : Option ℚ
  actual_cost : Option ℚ
  amount_saved : Option ℚ
  linked_event_ids : List String
  created_at : ℕ
  updated_at : ℕ
  deleted_at : Option ℕ
deriving DecidableEq

/-- `Event.savings_progress_pct` (computed field): null unless financial
with a positive target (`not self.savings_target` is Python falsiness,
i.e. absent or zero); else `min(100, round(amount_saved/target*100, 2))`
with `amount_saved` defaulting to 0. -/
def savingsProgressPct (e : StoredEvent) : Option ℚ :=
  match e.is_financial, e.savings_target with
  | false, _ => none
  | true, none => none
  | true, some t =>
    if t = 0 then none
    else if t ≤ 0 then none
    else some (min 100 (rnd2 (e.amount_saved.getD 0 / t * 100)))

/-- `Event.is_fully_funded` (computed field): same gate as
`savings_progress_pct`; else `amount_saved >= savings_target`. -/
def isFullyFunded (e : StoredEvent) : Option Bool :=
  match e.is_financial, e.savings_target with
  | false, _ => none
  | true, none => none
  | true, some t =>
    if t = 0 then none
    else if t ≤ 0 then none
    else some (e.amount_saved.getD 0 ≥ t)

/-! ### Stable sorting

Python's `list.sort` and a single-node Mongo sort are embedded as the
same deterministic stable sort: elements are inserted, in list order,
after all already-placed elements the comparator accepts.  (`list.sort`
is documented stable; a Mongo sort leaves the order of ties
unspecified, and the embedding resolves it to insertion order.) -/

/-- Insert `x` after every element `y` with `le y x = true`. -/
def insertOrd (le : α → α → Bool) (x : α) : List α → List α
  | [] => [x]
  | y :: ys => if le y x then y :: insertOrd le x ys else x :: y :: ys

/-- Stable sort by a boolean comparator. -/
def stableSortBy (le : α → α → Bool) (l : List α) : List α :=
  l.foldl (fun acc x => insertOrd le x acc) []

/-! ### Views and updates -/

/-- The externally observable part of a returned entity: every field of
the serialized `Event`, including the computed fields, except the
identifier and the server-stamped timestamps (which differ between
backends by construction and are excluded by the claims). -/
structure EventView where
  user_id : String
  title : String
  category : String
  start_date : PDate
  end_date : Option PDate
  description : Option String
  notes : Option String
  status : EventStatus
  priority : EventPriority
  timeline_phase : Option String
  is_financial : Bool
  estimated_cost : Option ℚ
  savings_target : Option ℚ
  actual_cost : Option ℚ
  amount_saved : Option ℚ
  linked_event_ids : List String
  savings_progress_pct : Option ℚ
  is_fully_funded : Option Bool
deriving DecidableEq

/-- Serialize a stored event for a response. -/
def StoredEvent.view (e : StoredEvent) : EventView :=
  { user_id := e.user_id, title := e.title, category := e.category
    start_date := e.start_date, end_date := e.end_date
    description := e.description, notes := e.notes
    status := e.status, priority := e.priority
    timeline_phase := e.timeline_phase, is_financial := e.is_financial
    estimated_cost := e.estimated_cost, savings_target := e.savings_target
    actual_cost := e.actual_cost, amount_saved := e.amount_saved
    linked_event_ids := e.linked_event_ids
    savings_progress_pct := savingsProgressPct e
    is_fully_funded := isFullyFunded e }

/-- The stored event a create payload turns into. -/
def EventCreate.stored (p : EventCreate) (id now : ℕ) : StoredEvent :=
  { id := id, user_id := p.user_id, title := p.title, category := p.category
    start_date := p.start_date, end_date := p.end_date
    description := p.description, notes := p.notes
    status := p.status, priority := p.priority
    timeline_phase := p.timeline_phase, is_financial := p.is_financial
    estimated_cost := p.estimated_cost, savings_target := p.savings_target
    actual_cost := p.actual_cost, amount_saved := p.amount_saved
    linked_event_ids := p.linked_event_ids
    created_at := now, updated_at := now, deleted_at := none }

/-- Apply the supplied fields of a partial update to a stored event
(the shared meaning of Mongo's `$set` of `model_dump(exclude_unset=True)`
and of `model_copy(update=...)`); the caller stamps `updated_at`. -/
def applyUpdate (e : StoredEvent) (u : EventUpdate) : StoredEvent :=
  { e with
    title := u.title.getD e.title
    category := u.category.getD e.category
    start_date := u.start_date.getD e.start_date
    end_date := u.end_date.getD e.end_date
    description := u.description.getD e.description
    notes := u.notes.getD e.notes
    status := u.status.getD e.status
    priority := u.priority.getD e.priority
    timeline_phase := u.timeline_phase.getD e.timeline_phase
    is_financial := u.is_financial.getD e.is_financial
    estimated_cost := u.estimated_cost.getD e.estimated_cost
    savings_target := u.savings_target.getD e.savings_target
    actual_cost := u.actual_cost.getD e.actual_cost
    amount_saved := u.amount_saved.getD e.amount_saved
    linked_event_ids := u.linked_event_ids.getD e.linked_event_ids }

/-! ### Query parameters and observations -/

/-- `SortBy`. -/
inductive SortBy where
  | start_date
  | priority
  | created_at
deriving DecidableEq

/-- `SortOrder`. -/
inductive SortOrder where
  | asc
  | desc
deriving DecidableEq

/-- The parameters of a `list_events` call. -/
structure ListQuery where
  status : Option EventStatus := none
  category : Option String := none
  year : Option ℕ := none
  page : ℕ := 1
  page_size : ℕ := 20
  sort_by : SortBy := .start_date
  sort_order : SortOrder := .asc
deriving DecidableEq

/-- `get_overview_summary` result.  `by_status` is the status→count
dictionary rendered as the triple of counts for (planned, in-progress,
completed) — the dictionaries only ever hold statuses with a nonzero
count, so two of them are equal iff the triples are.  `by_timeline_phase`
is the phase→count dictionary in its canonical form: entries sorted by
key (dictionary equality ignores insertion order). -/
structure OverviewSummary where
  total_events : ℕ
  by_status : ℕ × ℕ × ℕ
  by_timeline_phase : List (String × ℕ)
deriving DecidableEq

/-- `get_financial_summary` result. -/
structure FinancialSummary where
  total_savings_target : ℚ
  total_amount_saved : ℚ
  fully_funded_events : ℕ
  upcoming_financial_events : ℕ
  next_years : ℕ
deriving DecidableEq

/-- The externally observable outcome of one repository operation.
`err` is a raised exception (the Mongo adapter re-validates documents
when deserializing them, which can raise on a record an update made
inconsistent). -/
inductive Obs where
  | entity : Option EventView → Obs
  | deleted : Bool → Obs
  | listing : List EventView → ℕ → Obs
  | overview : OverviewSummary → Obs
  | financial : FinancialSummary → Obs
  | err : Obs
deriving DecidableEq

/-! ### The volatile adapter (`app/repositories/in_memory.py`)

The Python dict `self.events` preserves insertion order and keeps a
key's position on reassignment, so it is embedded as a list of stored
events in insertion order, with in-place replacement by key. -/

/-- State of `InMemoryEventRepository` plus the id counter and the
logical clock. -/
structure MemState where
  events : List StoredEvent
  nextId : ℕ
  clock : ℕ

/-- The rows every read starts from: not deleted and owned by the user. -/
def liveUserRows (events : List StoredEvent) (uid : String) : List StoredEvent :=
  events.filter fun e => e.deleted_at == none && e.user_id == uid

/-- `create_event`. -/
def memCreate (s : MemState) (p : EventCreate) : StoredEvent × MemState :=
  let e := p.stored s.nextId s.clock
  (e, { s with events := s.events ++ [e], nextId := s.nextId + 1 })

/-- `get_event`: dict lookup, then the deleted/owner checks. -/
def memGetEvent (s : MemState) (uid : String) (id : ℕ) : Option StoredEvent :=
  match s.events.find? (fun e => e.id == id) with
  | none => none
  | some e => if e.deleted_at == none && e.user_id == uid then some e else none

/-- Dict reassignment `self.events[event_id] = v`. -/
def memPut (events : List StoredEvent) (id : ℕ) (v : StoredEvent) : List StoredEvent :=
  events.map fun e => if e.id == id then v else e

/-- `update_event`. -/
def memUpdate (s : MemState) (uid : String) (id : ℕ) (u : EventUpdate) :
    Option StoredEvent × MemState :=
  match memGetEvent s uid id with
  | none => (none, s)
  | some e =>
    let updated := { applyUpdate e u with updated_at := s.clock }
    (some updated, { s with events := memPut s.events id updated })

/-- `delete_event`. -/
def memDelete (s : MemState) (uid : String) (id : ℕ) : Bool × MemState :=
  match memGetEvent s uid id with
  | none => (false, s)
  | some e =>
    let d := { e with deleted_at := some s.clock, updated_at := s.clock }
    (true, { s with events := memPut s.events id d })

/-- The comparator `list_events` sorts with (Python `list.sort` with a
key, stable, `reverse` for descending order). -/
def memCmp (sb : SortBy) (so : SortOrder) (a b : StoredEvent) : Bool :=
  match sb, so with
  | .priority, .asc => PRIORITY_RANK a.priority ≤ PRIORITY_RANK b.priority
  | .priority, .desc => PRIORITY_RANK b.priority ≤ PRIORITY_RANK a.priority
  | .start_date, .asc => a.start_date.key ≤ b.start_date.key
  | .start_date, .desc => b.start_date.key ≤ a.start_date.key
  | .created_at, .asc => a.created_at ≤ b.created_at
  | .created_at, .desc => b.created_at ≤ a.created_at

/-- `list_events`: filter, sort, count, page-slice. -/
def memList (s : MemState) (uid : String) (q : ListQuery) :
    List StoredEvent × ℕ :=
  let values := liveUserRows s.events uid
  let values := match q.status with
    | none => values
    | some st => values.filter fun e => e.status == st
  let values := match q.category with
    | none => values
    | some c => values.filter fun e => e.category == c
  let values := match q.year with
    | none => values
    | some y => values.filter fun e => e.start_date.year == y
  let values := stableSortBy (memCmp q.sort_by q.sort_order) values
  let total := values.length
  let start := (q.page - 1) * q.page_size
  ((values.drop start).take q.page_size, total)

/-! Canonical rendering of the phase→count dictionary (see
`OverviewSummary.by_timeline_phase`): the distinct phase values of the
rows (the group keys, `None` included), sorted, with the falsy keys
(`None` and the empty string) dropped and each surviving key paired
with its row count. -/

/-- Order on group keys: `none` first, then strings in order. -/
def optStrLe (a b : Option String) : Bool :=
  match a, b with
  | none, _ => true
  | some _, none => false
  | some x, some y => x ≤ y

/-- The distinct phase values of the rows, in canonical (sorted) order. -/
def sortedPhaseKeys (phases : List (Option String)) : List (Option String) :=
  stableSortBy optStrLe phases.dedup

/-- Keep the truthy keys, each with its row count. -/
def phaseEntries (keys : List (Option String)) (cnt : String → ℕ) :
    List (String × ℕ) :=
  keys.filterMap fun k =>
    match k with
    | none => none
    | some p => if p = "" then none else some (p, cnt p)

/-- `get_overview_summary`. -/
def memOverview (s : MemState) (uid : String) : OverviewSummary :=
  let rows := liveUserRows s.events uid
  { total_events := rows.length
    by_status :=
      (rows.countP (fun e => e.status == .planned),
       rows.countP (fun e => e.status == .inProgress),
       rows.countP (fun e => e.status == .completed))
    by_timeline_phase :=
      phaseEntries (sortedPhaseKeys (rows.map (·.timeline_phase)))
        (fun p => rows.countP fun e => e.timeline_phase == some p) }

/-- `date(today.year + next_years, 1, 1)`. -/
def upcomingEnd (today : PDate) (next_years : ℕ) : PDate :=
  ⟨today.year + next_years, 1, 1⟩

/-- `get_financial_summary`. -/
def memFinancial (today : PDate) (s : MemState) (uid : String) (next_years : ℕ) :
    FinancialSummary :=
  let rows := (liveUserRows s.events uid).filter fun e => e.is_financial
  { total_savings_target := rnd2 (rows.map (fun e => e.savings_target.getD 0)).sum
    total_amount_saved := rnd2 (rows.map (fun e => e.amount_saved.getD 0)).sum
    fully_funded_events := rows.countP fun e =>
      0 < e.savings_target.getD 0 && e.savings_target.getD 0 ≤ e.amount_saved.getD 0
    upcoming_financial_events := rows.countP fun e =>
      today.key ≤ e.start_date.key && e.start_date.key < (upcomingEnd today next_years).key
    next_years := next_years }

/-! ### The persistent adapter (`app/repositories/events.py`)

A document carries the entity fields plus the precomputed
`priority_rank`.  Dates are persisted as ISO-8601 strings, whose
lexicographic order coincides with `PDate.key` order, so the range
queries below compare keys.  `_id` is unique; natural order is
insertion order. -/

/-- A document of the events collection. -/
structure MongoDoc where
  ev : StoredEvent
  priority_rank : ℕ
deriving DecidableEq

/-- State of `MongoEventRepository`'s collection plus the id counter and
the logical clock. -/
structure MongoState where
  docs : List MongoDoc
  nextId : ℕ
  clock : ℕ

/-- `_doc_to_event`: strips `_id`/`priority_rank` and rebuilds
`Event(**doc)`, which re-runs validation.  The per-field bound checks
re-run checks that payload parsing already performed on every value
that can reach a document, so the one check that can newly fail —
raising instead of returning — is the `validate_dates` cross-field
rule. -/
def docToEvent (d : MongoDoc) : Option StoredEvent :=
  if datesOk d.ev.start_date d.ev.end_date then some d.ev else none

/-- `find_one({"_id": id, "deleted_at": None, "user_id": uid})`. -/
def mongoFindOne (s : MongoState) (uid : String) (id : ℕ) : Option MongoDoc :=
  s.docs.find? fun d =>
    d.ev.id == id && d.ev.deleted_at == none && d.ev.user_id == uid

/-- `update_one` touches the (unique) matching document. -/
def updateFirst (p : α → Bool) (f : α → α) : List α → List α
  | [] => []
  | x :: xs => if p x then f x :: xs else x :: updateFirst p f xs

/-- `create_event`: insert the payload with timestamps, a null
tombstone and the precomputed rank, then re-fetch and deserialize
(`none` here is the raised `RuntimeError`/validation error). -/
def mongoCreate (s : MongoState) (p : EventCreate) :
    Option StoredEvent × MongoState :=
  let doc : MongoDoc :=
    { ev := p.stored s.nextId s.clock, priority_rank := PRIORITY_RANK p.priority }
  let docs := s.docs ++ [doc]
  let created := docs.find? fun d =>
    d.ev.id == s.nextId && d.ev.deleted_at == none
  (created.bind docToEvent, { s with docs := docs, nextId := s.nextId + 1 })

/-- The `$match` query `list_events` builds (base query plus the
optional filters; the year filter is the ISO-string range
`[year-01-01, (year+1)-01-01)`). -/
def mongoMatch (uid : String) (q : ListQuery) (d : MongoDoc) : Bool :=
  d.ev.deleted_at == none && d.ev.user_id == uid &&
  (match q.status with
   | none => true
   | some st => d.ev.status == st) &&
  (match q.category with
   | none => true
   | some c => d.ev.category == c) &&
  (match q.year with
   | none => true
   | some y =>
     (PDate.key ⟨y, 1, 1⟩ ≤ d.ev.start_date.key) &&
     (d.ev.start_date.key < PDate.key ⟨y + 1, 1, 1⟩))

/-- The sort comparator of `list_events`: for `priority`, the compound
sort `{"priority_rank": direction, "start_date": 1}`; otherwise the
single-key native sort. -/
def mongoCmp (sb : SortBy) (so : SortOrder) (a b : MongoDoc) : Bool :=
  match sb, so with
  | .priority, .asc =>
    a.priority_rank < b.priority_rank ||
      (a.priority_rank == b.priority_rank &&
        a.ev.start_date.key ≤ b.ev.start_date.key)
  | .priority, .desc =>
    b.priority_rank < a.priority_rank ||
      (a.priority_rank == b.priority_rank &&
        a.ev.start_date.key ≤ b.ev.start_date.key)
  | .start_date, .asc => a.ev.start_date.key ≤ b.ev.start_date.key
  | .start_date, .desc => b.ev.start_date.key ≤ a.ev.start_date.key
  | .created_at, .asc => a.ev.created_at ≤ b.ev.created_at
  | .created_at, .desc => b.ev.created_at ≤ a.ev.created_at

/-- Deserialize a page of documents; `none` is the raised validation
error (first inconsistent document aborts the request). -/
def docsToEvents (ds : List MongoDoc) : Option (List StoredEvent) :=
  if ds.all (fun d => datesOk d.ev.start_date d.ev.end_date)
  then some (ds.map (·.ev)) else none

/-- `list_events`: `count_documents` on the query, then the sorted,
skipped and limited page, deserialized. -/
def mongoList (s : MongoState) (uid : String) (q : ListQuery) :
    Option (List StoredEvent) × ℕ :=
  let total := s.docs.countP (mongoMatch uid q)
  let matched := s.docs.filter (mongoMatch uid q)
  let sorted := stableSortBy (mongoCmp q.sort_by q.sort_order) matched
  let skip := (q.page - 1) * q.page_size
  (docsToEvents ((sorted.drop skip).take q.page_size), total)

/-- `get_event` (malformed identifiers are not representable here: every
natural is a well-formed id). `.error ()` is a raised deserialization
error. -/
def mongoGet (s : MongoState) (uid : String) (id : ℕ) :
    Except Unit (Option StoredEvent) :=
  match mongoFindOne s uid id with
  | none => .ok none
  | some d =>
    match docToEvent d with
    | none => .error ()
    | some e => .ok (some e)

/-- The `$set` of `update_event`: the supplied fields, a recomputed
`priority_rank` when `priority` is among them, and a fresh
`updated_at`. -/
def mongoApplySet (d : MongoDoc) (u : EventUpdate) (now : ℕ) : MongoDoc :=
  { ev := { applyUpdate d.ev u with updated_at := now }
    priority_rank :=
      match u.priority with
      | some pr => PRIORITY_RANK pr
      | none => d.priority_rank }

/-- `update_event`: empty update short-circuits to `get_event`; else
`update_one` on the base query and a re-fetch. -/
def mongoUpdate (s : MongoState) (uid : String) (id : ℕ) (u : EventUpdate) :
    Except Unit (Option StoredEvent) × MongoState :=
  if u.isEmpty then (mongoGet s uid id, s)
  else
    match mongoFindOne s uid id with
    | none => (.ok none, s)
    | some _ =>
      let s' := { s with
        docs := updateFirst
          (fun d => d.ev.id == id && d.ev.deleted_at == none && d.ev.user_id == uid)
          (fun d => mongoApplySet d u s.clock) s.docs }
      (mongoGet s' uid id, s')

/-- `delete_event`: `update_one` stamping the tombstone; the returned
flag is `modified_count > 0`, and setting `deleted_at` from null to a
timestamp always modifies. -/
def mongoDelete (s : MongoState) (uid : String) (id : ℕ) :
    Bool × MongoState :=
  match mongoFindOne s uid id with
  | none => (false, s)
  | some _ =>
    (true, { s with
      docs := updateFirst
        (fun d => d.ev.id == id && d.ev.deleted_at == none && d.ev.user_id == uid)
        (fun d => { d with ev :=
          { d.ev with deleted_at := some s.clock, updated_at := s.clock } })
        s.docs })

/-- `get_overview_summary`: `count_documents` plus two `$group`
aggregations.  The status groups (at most three) fit the 20-row fetch;
the phase groups are fetched as `to_list(length=50)`, so only the first
50 groups survive — the server's group order is unspecified and is
embedded as the canonical sorted order. -/
def mongoOverview (s : MongoState) (uid : String) : OverviewSummary :=
  let rows := s.docs.filter fun d =>
    d.ev.deleted_at == none && d.ev.user_id == uid
  { total_events := rows.length
    by_status :=
      (rows.countP (fun d => d.ev.status == .planned),
       rows.countP (fun d => d.ev.status == .inProgress),
       rows.countP (fun d => d.ev.status == .completed))
    by_timeline_phase :=
      phaseEntries ((sortedPhaseKeys (rows.map (·.ev.timeline_phase))).take 50)
        (fun p => rows.countP fun d => d.ev.timeline_phase == some p) }

/-- `get_financial_summary`: the matching financial documents are
fetched as `to_list(length=2000)`, so the sums and the fully-funded
count run over at most the first 2000 of them; the upcoming count is a
separate uncapped `count_documents`. -/
def mongoFinancial (today : PDate) (s : MongoState) (uid : String)
    (next_years : ℕ) : FinancialSummary :=
  let matched := s.docs.filter fun d =>
    d.ev.deleted_at == none && d.ev.user_id == uid && d.ev.is_financial
  let docs := matched.take 2000
  { total_savings_target := rnd2 (docs.map (fun d => d.ev.savings_target.getD 0)).sum
    total_amount_saved := rnd2 (docs.map (fun d => d.ev.amount_saved.getD 0)).sum
    fully_funded_events := docs.countP fun d =>
      0 < d.ev.savings_target.getD 0 &&
        d.ev.savings_target.getD 0 ≤ d.ev.amount_saved.getD 0
    upcoming_financial_events := matched.countP fun d =>
      today.key ≤ d.ev.start_date.key &&
        d.ev.start_date.key < (upcomingEnd today next_years).key
    next_years := next_years }

/-! ### Operations, steps and runs

One request = one operation.  The create step stores the request's
trusted user id on the payload (`payload.model_copy(update={"user_id":
user_id})`, done identically by the route and the service).  The
logical clock ticks once per operation. -/

/-- A repository operation together with the request's trusted user. -/
inductive Op where
  | create (uid : String) (p : EventCreate)
  | get (uid : String) (id : ℕ)
  | update (uid : String) (id : ℕ) (u : EventUpdate)
  | delete (uid : String) (id : ℕ)
  | list (uid : String) (q : ListQuery)
  | overview (uid : String)
  | financial (uid : String) (next_years : ℕ)

/-- One volatile-adapter request. -/
def memStep (today : PDate) (s : MemState) : Op → Obs × MemState
  | .create uid p =>
    let r := memCreate s { p with user_id := uid }
    (.entity (some r.1.view), r.2)
  | .get uid id => (.entity ((memGetEvent s uid id).map (·.view)), s)
  | .update uid id u =>
    let r := memUpdate s uid id u
    (.entity (r.1.map (·.view)), r.2)
  | .delete uid id =>
    let r := memDelete s uid id
    (.deleted r.1, r.2)
  | .list uid q =>
    let r := memList s uid q
    (.listing (r.1.map (·.view)) r.2, s)
  | .overview uid => (.overview (memOverview s uid), s)
  | .financial uid ny => (.financial (memFinancial today s uid ny), s)

/-- One persistent-adapter request. -/
def mongoStep (today : PDate) (s : MongoState) : Op → Obs × MongoState
  | .create uid p =>
    let r := mongoCreate s { p with user_id := uid }
    (match r.1 with
     | none => .err
     | some e => .entity (some e.view), r.2)
  | .get uid id =>
    (match mongoGet s uid id with
     | .error _ => .err
     | .ok r => .entity (r.map (·.view)), s)
  | .update uid id u =>
    let r := mongoUpdate s uid id u
    (match r.1 with
     | .error _ => .err
     | .ok v => .entity (v.map (·.view)), r.2)
  | .delete uid id =>
    let r := mongoDelete s uid id
    (.deleted r.1, r.2)
  | .list uid q =>
    let r := mongoList s uid q
    (match r.1 with
     | none => .err
     | some es => .listing (es.map (·.view)) r.2, s)
  | .overview uid => (.overview (mongoOverview s uid), s)
  | .financial uid ny => (.financial (mongoFinancial today s uid ny), s)

/-- Advance the logical clock after a request. -/
def MemState.tick (s : MemState) : MemState := { s with clock := s.clock + 1 }

/-- Advance the logical clock after a request. -/
def MongoState.tick (s : MongoState) : MongoState := { s with clock := s.clock + 1 }

/-- The observations a sequence of requests produces on the volatile
adapter. -/
def memRun (today : PDate) (s : MemState) : List Op → List Obs
  | [] => []
  | op :: ops =>
    let r := memStep today s op
    r.1 :: memRun today r.2.tick ops

/-- The observations a sequence of requests produces on the persistent
adapter. -/
def mongoRun (today : PDate) (s : MongoState) : List Op → List Obs
  | [] => []
  | op :: ops =>
    let r := mongoStep today s op
    r.1 :: mongoRun today r.2.tick ops

/-- An empty volatile store. -/
def MemState.init : MemState := ⟨[], 0, 0⟩

/-- An empty collection. -/
def MongoState.init : MongoState := ⟨[], 0, 0⟩

/-! ### The service layer (`app/services/event_service.py`)

The business rules are storage-independent; the embedding runs them in
front of the volatile adapter.  The call sites always pass a present
status and start date, so the signatures take them directly. -/

/-- `EventService._validate_financial_requirements`. -/
def validateFinancialRequirements (is_financial : Bool)
    (savings_target : Option ℚ) : Except String Unit :=
  if is_financial && savings_target == none then
    .error "financial events must include savings_target"
  else .ok ()

/-- `EventService._validate_completion_timing` (`end_date or
start_date` picks `end_date` when present; the effective date is never
`None` at the call sites). -/
def validateCompletionTiming (today : PDate) (status : EventStatus)
    (start_date : PDate) (end_date : Option PDate) : Except String Unit :=
  if status ≠ .completed then .ok ()
  else
    let effective := end_date.getD start_date
    if today.key < effective.key then
      .error "completed events cannot have a future start/end date"
    else .ok ()

/-- `EventService.create_event`: financial rule, then timing rule, then
the trusted user id is stamped and the repository creates. -/
def serviceCreate (today : PDate) (s : MemState) (uid : String)
    (p : EventCreate) : Except String (StoredEvent × MemState) :=
  match validateFinancialRequirements p.is_financial p.savings_target with
  | .error m => .error m
  | .ok _ =>
    match validateCompletionTiming today p.status p.start_date p.end_date with
    | .error m => .error m
    | .ok _ => .ok (memCreate s { p with user_id := uid })

/-! The effective values `update_event` validates against:
`payload.X if payload.X is not None else existing.X`.  Note the Python
test is on the *value*: an explicitly supplied null is
`payload.X is None` and falls back to the existing value. -/

/-- `next_is_financial`. -/
def effIsFinancial (u : EventUpdate) (existing : StoredEvent) : Bool :=
  u.is_financial.getD existing.is_financial

/-- `next_savings_target`. -/
def effSavingsTarget (u : EventUpdate) (existing : StoredEvent) : Option ℚ :=
  match u.savings_target.join with
  | some v => some v
  | none => existing.savings_target

/-- `next_status`. -/
def effStatus (u : EventUpdate) (existing : StoredEvent) : EventStatus :=
  u.status.getD existing.status

/-- `next_start_date`. -/
def effStartDate (u : EventUpdate) (existing : StoredEvent) : PDate :=
  u.start_date.getD existing.start_date

/-- `next_end_date`. -/
def effEndDate (u : EventUpdate) (existing : StoredEvent) : Option PDate :=
  match u.end_date.join with
  | some v => some v
  | none => existing.end_date

/-- `EventService.update_event`: fetch the existing record, compute the
effective values, run both rules in order, then delegate. -/
def serviceUpdate (today : PDate) (s : MemState) (uid : String) (id : ℕ)
    (u : EventUpdate) : Except String (Option StoredEvent × MemState) :=
  match memGetEvent s uid id with
  | none => .ok (none, s)
  | some existing =>
    match validateFinancialRequirements (effIsFinancial u existing)
        (effSavingsTarget u existing) with
    | .error m => .error m
    | .ok _ =>
      match validateCompletionTiming today (effStatus u existing)
          (effStartDate u existing) (effEndDate u existing) with
      | .error m => .error m
      | .ok _ => .ok (memUpdate s uid id u)

/-! ### Shape lemmas for the two business rules -/

theorem validateFinancialRequirements_eq (f : Bool) (t : Option ℚ) :
    validateFinancialRequirements f t =
      (if f = true ∧ t = none then
        .error "financial events must include savings_target" else .ok ()) := by
  unfold validateFinancialRequirements
  cases f <;> cases t <;> simp

theorem validateCompletionTiming_eq (today : PDate) (st : EventStatus)
    (sd : PDate) (ed : Option PDate) :
    validateCompletionTiming today st sd ed =
      (if st = .completed ∧ today.key < (ed.getD sd).key then
        .error "completed events cannot have a future start/end date"
      else .ok ()) := by
  unfold validateCompletionTiming
  by_cases hst : st = EventStatus.completed
  · simp only [hst]
    by_cases hd : today.key < (ed.getD sd).key
    · simp [hd]
    · simp [hd]
  · simp [hst]

/-! ### Rounding lemmas -/

theorem pyRound_ge_floor (q : ℚ) : (⌊q⌋ : ℤ) ≤ pyRound q := by
  unfold pyRound
  split
  · split
    · exact le_refl _
    · exact le_of_lt (lt_add_one _)
  · rw [round_eq]
    exact Int.floor_le_floor (by linarith)

theorem rnd2_ge_100 (q : ℚ) (h : 100 ≤ q) : (100 : ℚ) ≤ rnd2 q := by
  unfold rnd2
  have h1 : (10000 : ℤ) ≤ ⌊q * 100⌋ := by
    have : ((10000 : ℤ) : ℚ) ≤ q * 100 := by push_cast; linarith
    exact Int.le_floor.mpr this
  have h2 : (10000 : ℤ) ≤ pyRound (q * 100) := le_trans h1 (pyRound_ge_floor _)
  have h3 : ((10000 : ℤ) : ℚ) ≤ (pyRound (q * 100) : ℚ) := by exact_mod_cast h2
  rw [le_div_iff₀ (by norm_num : (0:ℚ) < 100)]
  push_cast at h3 ⊢
  linarith

/-! ### Sample data for witnesses -/

/-- A concrete financial event (the spec's worked example shape). -/
def sampleFinEvent (target saved : Option ℚ) : StoredEvent :=
  { id := 0, user_id := "rupa", title := "Start MSc", category := "education"
    start_date := ⟨2028, 9, 1⟩, end_date := none, description := none
    notes := none, status := .planned, priority := .high
    timeline_phase := some "early-career", is_financial := true
    estimated_cost := some 50000, savings_target := target
    actual_cost := some 0, amount_saved := saved, linked_event_ids := []
    created_at := 0, updated_at := 0, deleted_at := none }

/-! ### C5 -/

/-- C5: for every event, `savingsProgressPct` and `isFullyFunded` are
null iff the event is not financial or `savingsTarget` is absent or
≤ 0; otherwise (with `amountSaved` defaulting to 0)
`savingsProgressPct = min(100, round(100*amountSaved/savingsTarget, 2))`
and `isFullyFunded = (amountSaved ≥ savingsTarget)`; the target-45000 /
saved-10000 instance yields 22.22 and false, and saved ≥ target yields
the capped 100.0 and true. -/
theorem savings_computed_fields (e : StoredEvent) :
    ((savingsProgressPct e = none ∧ isFullyFunded e = none) ↔
      (e.is_financial = false ∨ e.savings_target = none ∨
        ∃ t, e.savings_target = some t ∧ t ≤ 0)) ∧
    (∀ t : ℚ, e.is_financial = true → e.savings_target = some t → 0 < t →
      savingsProgressPct e =
        some (min 100 (rnd2 (100 * e.amount_saved.getD 0 / t))) ∧
      isFullyFunded e = some (decide (e.amount_saved.getD 0 ≥ t))) ∧
    (∀ t : ℚ, e.is_financial = true → e.savings_target = some t → 0 < t →
      t ≤ e.amount_saved.getD 0 →
      savingsProgressPct e = some 100 ∧ isFullyFunded e = some true) ∧
    (savingsProgressPct (sampleFinEvent (some 45000) (some 10000)) =
        some (2222 / 100) ∧
      isFullyFunded (sampleFinEvent (some 45000) (some 10000)) = some false) := by
  have hinst : savingsProgressPct (sampleFinEvent (some 45000) (some 10000)) =
        some (2222 / 100) ∧
      isFullyFunded (sampleFinEvent (some 45000) (some 10000)) = some false := by
    have hr : rnd2 ((200 : ℚ) / 9) = 1111 / 50 := by
      unfold rnd2 pyRound
      norm_num [round_eq]
    constructor
    · simp only [savingsProgressPct, sampleFinEvent, Option.getD]
      norm_num [hr]
    · simp only [isFullyFunded, sampleFinEvent, Option.getD]
      norm_num
  refine ⟨?_, ?_, ?_, hinst⟩
  · cases hf : e.is_financial
    · simp [savingsProgressPct, isFullyFunded, hf]
    · cases ht : e.savings_target with
      | none => simp [savingsProgressPct, isFullyFunded, hf, ht]
      | some t =>
        by_cases h0 : t = 0
        · simp only [savingsProgressPct, isFullyFunded, hf, ht, h0]
          simp
        · by_cases hle : t ≤ 0
          · simp only [savingsProgressPct, isFullyFunded, hf, ht]
            simp [h0, hle]
          · simp only [savingsProgressPct, isFullyFunded, hf, ht]
            simp [h0, hle]
  · intro t hf ht hpos
    have h0 : ¬ t = 0 := ne_of_gt hpos
    have hle : ¬ t ≤ 0 := not_le.mpr hpos
    constructor
    · simp only [savingsProgressPct, hf, ht, h0, hle, if_false]
      have harg : e.amount_saved.getD 0 / t * 100 =
          100 * e.amount_saved.getD 0 / t := by ring
      rw [harg]
    · simp only [isFullyFunded, hf, ht, h0, hle, if_false]
  · intro t hf ht hpos hsat
    have h0 : ¬ t = 0 := ne_of_gt hpos
    have hle : ¬ t ≤ 0 := not_le.mpr hpos
    have hq : (100 : ℚ) ≤ e.amount_saved.getD 0 / t * 100 := by
      have h1 : (1 : ℚ) ≤ e.amount_saved.getD 0 / t :=
        (one_le_div hpos).mpr hsat
      linarith
    constructor
    · simp only [savingsProgressPct, hf, ht, h0, hle, if_false]
      rw [min_eq_left (rnd2_ge_100 _ hq)]
    · simp only [isFullyFunded, hf, ht, h0, hle, if_false]
      simp [ge_iff_le, hsat]

/-- C5 witness: the general clauses applied to the concrete
target-50000 / saved-50000 event. -/
theorem savings_computed_fields_witness :
    savingsProgressPct (sampleFinEvent (some 50000) (some 50000)) = some 100 ∧
    isFullyFunded (sampleFinEvent (some 50000) (some 50000)) = some true := by
  exact (savings_computed_fields (sampleFinEvent (some 50000) (some 50000))).2.2.1
    50000 rfl rfl (by norm_num) (by simp [sampleFinEvent])

/-! ### C9 -/

/-- The effective end date in the *claim's* sense ("the value in the
incoming partial update if supplied, else the stored value"): an
explicitly supplied null end date is a supplied value and clears the
field.  This spec-side definition exists only to compare the claim
against the code's `effEndDate`, whose `is not None` test sends an
explicit null back to the stored value. -/
def specEffEndDate (u : EventUpdate) (existing : StoredEvent) :
    Option PDate :=
  match u.end_date with
  | some v => v
  | none => existing.end_date

/-- A stored event whose start date is past and whose end date is
future (relative to today 2026-10-12). -/
def pastStartFutureEnd : StoredEvent :=
  { id := 0, user_id := "rupa", title := "Long project", category := "career"
    start_date := ⟨2020, 1, 1⟩, end_date := some ⟨2030, 1, 1⟩
    description := none, notes := none, status := .inProgress
    priority := .medium, timeline_phase := none, is_financial := false
    estimated_cost := none, savings_target := none, actual_cost := none
    amount_saved := none, linked_event_ids := []
    created_at := 0, updated_at := 0, deleted_at := none }

/-- The partial update that marks the event completed while explicitly
clearing its end date. -/
def nullEndCompletedUpdate : EventUpdate :=
  { end_date := some none, status := some EventStatus.completed }

/-- C9 counterexample: updating the past-start/future-end event with
`{end_date: null, status: completed}` must succeed under the claim —
the effective status is `completed` and the claim's effective date
(endDate if present, else startDate, where an explicitly supplied null
end date is absent) is the past start date — yet the service validates
the code's effective end date (an explicit null falls back to the
stored future end date) and fails with exactly the completion-timing
error. -/
theorem completion_timing_counterexample :
    memGetEvent ⟨[pastStartFutureEnd], 1, 1⟩ "rupa" 0 =
      some pastStartFutureEnd ∧
    effStatus nullEndCompletedUpdate pastStartFutureEnd = .completed ∧
    specEffEndDate nullEndCompletedUpdate pastStartFutureEnd = none ∧
    ¬((⟨2026, 10, 12⟩ : PDate).key <
      ((specEffEndDate nullEndCompletedUpdate pastStartFutureEnd).getD
        pastStartFutureEnd.start_date).key) ∧
    serviceUpdate ⟨2026, 10, 12⟩ ⟨[pastStartFutureEnd], 1, 1⟩ "rupa" 0
        nullEndCompletedUpdate =
      .error "completed events cannot have a future start/end date" := by
  exact ⟨rfl, rfl, rfl, by decide, rfl⟩

/-- C9 (amended): on create and on update, if the effective status is
`completed` and the effective date (`endDate` if present, else
`startDate`) is strictly after today, the service fails with exactly
"completed events cannot have a future start/end date"; this rule runs
after the financial completeness rule, whose failure short-circuits;
when both rules pass, the service delegates to the repository.  The
effective values on update use the code's non-null fallback: an
explicitly supplied null `endDate` falls back to the stored end date
rather than making it absent. -/
theorem completion_timing_amended (today : PDate) (s : MemState) (uid : String)
    (id : ℕ) (p : EventCreate) (u : EventUpdate) :
    (p.is_financial = true ∧ p.savings_target = none →
      serviceCreate today s uid p =
        .error "financial events must include savings_target") ∧
    (¬(p.is_financial = true ∧ p.savings_target = none) →
      (serviceCreate today s uid p =
          .error "completed events cannot have a future start/end date" ↔
        (p.status = .completed ∧
          today.key < (p.end_date.getD p.start_date).key))) ∧
    (¬(p.is_financial = true ∧ p.savings_target = none) →
      ¬(p.status = .completed ∧ today.key < (p.end_date.getD p.start_date).key) →
      serviceCreate today s uid p = .ok (memCreate s { p with user_id := uid })) ∧
    (∀ existing, memGetEvent s uid id = some existing →
      ((effIsFinancial u existing = true ∧ effSavingsTarget u existing = none →
        serviceUpdate today s uid id u =
          .error "financial events must include savings_target") ∧
      (¬(effIsFinancial u existing = true ∧ effSavingsTarget u existing = none) →
        (serviceUpdate today s uid id u =
            .error "completed events cannot have a future start/end date" ↔
          (effStatus u existing = .completed ∧
            today.key < ((effEndDate u existing).getD (effStartDate u existing)).key))) ∧
      (¬(effIsFinancial u existing = true ∧ effSavingsTarget u existing = none) →
        ¬(effStatus u existing = .completed ∧
          today.key < ((effEndDate u existing).getD (effStartDate u existing)).key) →
        serviceUpdate today s uid id u = .ok (memUpdate s uid id u)))) := by
  refine ⟨?_, ?_, ?_, ?_⟩
  · intro h
    unfold serviceCreate
    rw [validateFinancialRequirements_eq]
    simp [h]
  · intro h
    unfold serviceCreate
    rw [validateFinancialRequirements_eq, if_neg h, validateCompletionTiming_eq]
    by_cases hc : p.status = .completed ∧ today.key < (p.end_date.getD p.start_date).key
    · simp [hc]
    · simp [hc]
  · intro h hc
    unfold serviceCreate
    rw [validateFinancialRequirements_eq, if_neg h, validateCompletionTiming_eq,
      if_neg hc]
  · intro existing hex
    refine ⟨?_, ?_, ?_⟩
    · intro h
      unfold serviceUpdate
      simp only [hex]
      rw [validateFinancialRequirements_eq]
      simp [h]
    · intro h
      unfold serviceUpdate
      simp only [hex]
      rw [validateFinancialRequirements_eq, if_neg h, validateCompletionTiming_eq]
      by_cases hc : effStatus u existing = .completed ∧
          today.key < ((effEndDate u existing).getD (effStartDate u existing)).key
      · simp [hc]
      · simp [hc]
    · intro h hc
      unfold serviceUpdate
      simp only [hex]
      rw [validateFinancialRequirements_eq, if_neg h, validateCompletionTiming_eq,
        if_neg hc]

/-- C9 witness: creating a completed event dated 2999-01-01 against
today 2026-10-12 fails with exactly the completion-timing message. -/
theorem completion_timing_amended_witness :
    serviceCreate ⟨2026, 10, 12⟩ MemState.init "rupa"
      { title := "Future completion", category := "career"
        start_date := ⟨2999, 1, 1⟩, status := .completed } =
      .error "completed events cannot have a future start/end date" := by
  exact ((completion_timing_amended ⟨2026, 10, 12⟩ MemState.init "rupa" 0
    { title := "Future completion", category := "career"
      start_date := ⟨2999, 1, 1⟩, status := .completed }
    {}).2.1 (by decide)).mpr (by decide)

/-! ### C4 -/

/-- The event stored after the explicit-null update of the C4
counterexample: the financial flag is still set but the savings target
has been cleared. -/
def explicitNullUpdated : StoredEvent :=
  { sampleFinEvent none (some 0) with updated_at := 1 }

/-- C4 counterexample: updating a financial event (target 100) with an
explicitly supplied null `savings_target` does not fail with the
business-rule error the claim requires — the service validates the
*existing* target, succeeds, and stores an event with
`isFinancial = true` and `savingsTarget = null`. -/
theorem financial_rule_counterexample :
    serviceUpdate ⟨2026, 10, 12⟩ ⟨[sampleFinEvent (some 100) (some 0)], 1, 1⟩
        "rupa" 0 { savings_target := some none } =
      .ok (some explicitNullUpdated, ⟨[explicitNullUpdated], 1, 1⟩) ∧
    explicitNullUpdated.is_financial = true ∧
    explicitNullUpdated.savings_target = none := by
  refine ⟨?_, rfl, rfl⟩
  rfl

/-- C4 (amended): the rule the service implements compares the
*non-null* supplied value, else the existing/payload value: a create or
update fails with exactly "financial events must include
savings_target" iff the effective `isFinancial` is true and that
effective `savingsTarget` is null (on update, an explicitly supplied
null `savingsTarget` falls back to the stored value, so the update can
clear the target of a financial event); the check runs before the
repository is touched, and events stored through a *create* never have
`isFinancial` true with `savingsTarget` null. -/
theorem financial_rule_amended (today : PDate) (s : MemState) (uid : String)
    (id : ℕ) (p : EventCreate) (u : EventUpdate) :
    ((serviceCreate today s uid p =
        .error "financial events must include savings_target") ↔
      (p.is_financial = true ∧ p.savings_target = none)) ∧
    (∀ e s', serviceCreate today s uid p = .ok (e, s') →
      ¬(e.is_financial = true ∧ e.savings_target = none)) ∧
    (∀ existing, memGetEvent s uid id = some existing →
      ((serviceUpdate today s uid id u =
          .error "financial events must include savings_target") ↔
        (effIsFinancial u existing = true ∧
          effSavingsTarget u existing = none))) := by
  refine ⟨?_, ?_, ?_⟩
  · unfold serviceCreate
    rw [validateFinancialRequirements_eq]
    by_cases h : p.is_financial = true ∧ p.savings_target = none
    · simp [h]
    · rw [if_neg h, validateCompletionTiming_eq]
      by_cases hc : p.status = .completed ∧
          today.key < (p.end_date.getD p.start_date).key
      · simp [h, hc]
      · simp [h, hc]
  · intro e s' hok
    unfold serviceCreate at hok
    rw [validateFinancialRequirements_eq] at hok
    by_cases h : p.is_financial = true ∧ p.savings_target = none
    · rw [if_pos h] at hok
      exact absurd hok (by simp)
    · rw [if_neg h, validateCompletionTiming_eq] at hok
      by_cases hc : p.status = .completed ∧
          today.key < (p.end_date.getD p.start_date).key
      · rw [if_pos hc] at hok
        exact absurd hok (by simp)
      · rw [if_neg hc] at hok
        have he : e = (memCreate s { p with user_id := uid }).1 := by
          have := hok
          simp only [Except.ok.injEq] at this
          exact congrArg Prod.fst this.symm
        subst he
        simpa [memCreate, EventCreate.stored] using h
  · intro existing hex
    unfold serviceUpdate
    simp only [hex]
    rw [validateFinancialRequirements_eq]
    by_cases h : effIsFinancial u existing = true ∧
        effSavingsTarget u existing = none
    · simp [h]
    · rw [if_neg h, validateCompletionTiming_eq]
      by_cases hc : effStatus u existing = .completed ∧
          today.key < ((effEndDate u existing).getD (effStartDate u existing)).key
      · simp [h, hc]
      · simp [h, hc]

/-- C4 witness: creating a financial event with no savings target fails
with exactly the financial-completeness message. -/
theorem financial_rule_amended_witness :
    serviceCreate ⟨2026, 10, 12⟩ MemState.init "rupa"
      { title := "Invest in business", category := "finance"
        start_date := ⟨2028, 5, 1⟩, is_financial := true } =
      .error "financial events must include savings_target" := by
  exact (financial_rule_amended ⟨2026, 10, 12⟩ MemState.init "rupa" 0
    { title := "Invest in business", category := "finance"
      start_date := ⟨2028, 5, 1⟩, is_financial := true } {}).1.mpr (by decide)

/-! ### C3 -/

/-- A stored non-financial event spanning 2028-01-01 .. 2028-06-01. -/
def spanEvent : StoredEvent :=
  { id := 0, user_id := "rupa", title := "Sabbatical", category := "life"
    start_date := ⟨2028, 1, 1⟩, end_date := some ⟨2028, 6, 1⟩
    description := none, notes := none, status := .planned
    priority := .medium, timeline_phase := none, is_financial := false
    estimated_cost := none, savings_target := none, actual_cost := none
    amount_saved := none, linked_event_ids := []
    created_at := 0, updated_at := 0, deleted_at := none }

/-- `spanEvent` after the C3 counterexample's update: its start date now
lies after its (unchanged) end date. -/
def spanUpdated : StoredEvent :=
  { spanEvent with start_date := ⟨2029, 1, 1⟩, updated_at := 1 }

/-- C3 counterexample: a partial update that moves `startDate` past the
stored `endDate` is not rejected — the service and the repository
accept it and store an event with `endDate < startDate`. -/
theorem date_invariant_counterexample :
    serviceUpdate ⟨2026, 10, 12⟩ ⟨[spanEvent], 1, 1⟩ "rupa" 0
        { start_date := some ⟨2029, 1, 1⟩ } =
      .ok (some spanUpdated, ⟨[spanUpdated], 1, 1⟩) ∧
    datesOk spanUpdated.start_date spanUpdated.end_date = false := by
  exact ⟨rfl, rfl⟩

/-- The pydantic `Field` bound checks of `EventBase`, all satisfied. -/
def fieldBoundsOk (p : EventCreate) : Bool :=
  (1 ≤ p.user_id.length && p.user_id.length ≤ 120) &&
  (1 ≤ p.title.length && p.title.length ≤ 200) &&
  (1 ≤ p.category.length && p.category.length ≤ 100) &&
  (p.description.all fun s => s.length ≤ 2000) &&
  (p.notes.all fun s => s.length ≤ 4000) &&
  (p.timeline_phase.all fun s => s.length ≤ 120) &&
  (p.estimated_cost.all fun q => 0 ≤ q) &&
  (p.savings_target.all fun q => 0 ≤ q) &&
  (p.actual_cost.all fun q => 0 ≤ q) &&
  (p.amount_saved.all fun q => 0 ≤ q)

set_option maxHeartbeats 2000000 in
/-- C3 (amended): *construction* validates the date invariant — a
payload only parses when `endDate ≥ startDate` (when set), a
field-sound payload violating it fails with the structural validation
error naming `end_date`, and every event a service create stores
satisfies the invariant.  Partial updates, however, are not
re-validated (see the counterexample), so a stored event can come to
violate `endDate ≥ startDate`. -/
theorem date_invariant_amended (today : PDate) (s : MemState) (uid : String)
    (p p' : EventCreate) :
    (EventCreate.parse p = .ok p' → datesOk p'.start_date p'.end_date = true) ∧
    (fieldBoundsOk p = true → datesOk p.start_date p.end_date = false →
      EventCreate.parse p = .error "end_date cannot be earlier than start_date") ∧
    (∀ e s', EventCreate.parse p = .ok p →
      serviceCreate today s uid p = .ok (e, s') →
      datesOk e.start_date e.end_date = true) := by
  refine ⟨?_, ?_, ?_⟩
  · intro h
    unfold EventCreate.parse at h
    repeat' split at h
    all_goals simp_all
  · intro hb hd
    simp only [fieldBoundsOk, Bool.and_eq_true] at hb
    obtain ⟨⟨⟨⟨⟨⟨⟨⟨⟨h1, h2⟩, h3⟩, h4⟩, h5⟩, h6⟩, h7⟩, h8⟩, h9⟩, h10⟩ := hb
    unfold EventCreate.parse
    simp [h1, h2, h3, h4, h5, h6, h7, h8, h9, h10, hd]
  · intro e s' hp hok
    have hd : datesOk p.start_date p.end_date = true := by
      unfold EventCreate.parse at hp
      repeat' split at hp
      all_goals simp_all
    unfold serviceCreate at hok
    rw [validateFinancialRequirements_eq] at hok
    split at hok
    · exact absurd hok (by simp)
    · rw [validateCompletionTiming_eq] at hok
      split at hok
      · exact absurd hok (by simp)
      · have he : e = (memCreate s { p with user_id := uid }).1 := by
          simp only [Except.ok.injEq] at hok
          exact congrArg Prod.fst hok.symm
        subst he
        simpa [memCreate, EventCreate.stored] using hd

/-- C3 witness: the spec's invalid example (start 2028-01-10, end
2028-01-01) is field-sound but fails to parse with the date error;
a create of the valid span payload stores a date-sound event. -/
theorem date_invariant_amended_witness :
    EventCreate.parse
        { title := "Invalid Event", category := "finance"
          start_date := ⟨2028, 1, 10⟩, end_date := some ⟨2028, 1, 1⟩ } =
      .error "end_date cannot be earlier than start_date" := by
  exact (date_invariant_amended ⟨2026, 10, 12⟩ MemState.init "rupa"
    { title := "Invalid Event", category := "finance"
      start_date := ⟨2028, 1, 10⟩, end_date := some ⟨2028, 1, 1⟩ }
    { title := "Invalid Event", category := "finance"
      start_date := ⟨2028, 1, 10⟩, end_date := some ⟨2028, 1, 1⟩ }).2.1
    (by decide) (by decide)

/-! ### C10 -/

theorem filter_replicate_of_pos {α : Type} {p : α → Bool} {a : α}
    (h : p a = true) (n : ℕ) :
    (List.replicate n a).filter p = List.replicate n a := by
  induction n with
  | zero => rfl
  | succ n ih => simp [List.replicate_succ, List.filter_cons, h, ih]

theorem countP_replicate_of_pos {α : Type} {p : α → Bool} {a : α}
    (h : p a = true) (n : ℕ) :
    (List.replicate n a).countP p = n := by
  induction n with
  | zero => rfl
  | succ n ih => simp [List.replicate_succ, List.countP_cons, h, ih]

theorem rnd2_natCast (k : ℕ) : rnd2 (k : ℚ) = k := by
  unfold rnd2 pyRound
  have h100 : ((k : ℚ) * 100) = ((100 * k : ℕ) : ℚ) := by push_cast; ring
  rw [h100, Int.floor_natCast]
  norm_num [round_eq]
  have hf : ⌊100 * (k : ℚ) + 1 / 2⌋ = (100 * k : ℤ) := by
    rw [Int.floor_eq_iff]
    push_cast
    constructor <;> linarith
  rw [hf]
  push_cast
  ring

/-- A fully funded financial document (target 1, saved 1). -/
def finDoc : MongoDoc :=
  { ev := sampleFinEvent (some 1) (some 1), priority_rank := 3 }

/-- A collection holding `n` copies of `finDoc` for user "rupa". -/
def mongoFinState (n : ℕ) : MongoState := ⟨List.replicate n finDoc, n, n⟩

/-- The same `n` financial events in the volatile store. -/
def memFinState (n : ℕ) : MemState :=
  ⟨List.replicate n (sampleFinEvent (some 1) (some 1)), n, n⟩

/-- C10: with more than 2000 live financial events for a user, the
persistent adapter's financial summary aggregates only the first 2000
fetched documents — its totals and fully-funded count stop at 2000 —
while the volatile adapter aggregates all `n`, so the two summaries
disagree. -/
theorem financial_summary_cap (n : ℕ) (h : 2000 < n) :
    (mongoFinancial ⟨2026, 10, 12⟩ (mongoFinState n) "rupa" 5).total_savings_target
        = 2000 ∧
    (mongoFinancial ⟨2026, 10, 12⟩ (mongoFinState n) "rupa" 5).total_amount_saved
        = 2000 ∧
    (mongoFinancial ⟨2026, 10, 12⟩ (mongoFinState n) "rupa" 5).fully_funded_events
        = 2000 ∧
    (memFinancial ⟨2026, 10, 12⟩ (memFinState n) "rupa" 5).total_savings_target
        = n ∧
    (memFinancial ⟨2026, 10, 12⟩ (memFinState n) "rupa" 5).total_amount_saved
        = n ∧
    (memFinancial ⟨2026, 10, 12⟩ (memFinState n) "rupa" 5).fully_funded_events
        = n ∧
    (mongoFinancial ⟨2026, 10, 12⟩ (mongoFinState n) "rupa" 5).total_savings_target ≠
      (memFinancial ⟨2026, 10, 12⟩ (memFinState n) "rupa" 5).total_savings_target := by
  have hmin : min 2000 n = 2000 := min_eq_left h.le
  have hmatched :
      (mongoFinState n).docs.filter (fun d =>
        d.ev.deleted_at == none && d.ev.user_id == "rupa" && d.ev.is_financial) =
        List.replicate n finDoc :=
    filter_replicate_of_pos rfl n
  have htake :
      (List.replicate n finDoc).take 2000 = List.replicate 2000 finDoc := by
    rw [List.take_replicate, hmin]
  have hmongo :
      (mongoFinancial ⟨2026, 10, 12⟩ (mongoFinState n) "rupa" 5).total_savings_target
        = 2000 ∧
      (mongoFinancial ⟨2026, 10, 12⟩ (mongoFinState n) "rupa" 5).total_amount_saved
        = 2000 ∧
      (mongoFinancial ⟨2026, 10, 12⟩ (mongoFinState n) "rupa" 5).fully_funded_events
        = 2000 := by
    unfold mongoFinancial
    simp only [hmatched, htake]
    refine ⟨?_, ?_, ?_⟩
    · rw [List.map_replicate]
      have : (finDoc.ev.savings_target.getD 0) = (1 : ℚ) := rfl
      rw [this, List.sum_replicate, nsmul_eq_mul, mul_one]
      exact_mod_cast rnd2_natCast 2000
    · rw [List.map_replicate]
      have : (finDoc.ev.amount_saved.getD 0) = (1 : ℚ) := rfl
      rw [this, List.sum_replicate, nsmul_eq_mul, mul_one]
      exact_mod_cast rnd2_natCast 2000
    · exact countP_replicate_of_pos (by decide) 2000
  have hrows :
      (liveUserRows (memFinState n).events "rupa").filter (fun e => e.is_financial) =
        List.replicate n (sampleFinEvent (some 1) (some 1)) := by
    unfold liveUserRows memFinState
    rw [filter_replicate_of_pos rfl n, filter_replicate_of_pos rfl n]
  have hmem :
      (memFinancial ⟨2026, 10, 12⟩ (memFinState n) "rupa" 5).total_savings_target
        = n ∧
      (memFinancial ⟨2026, 10, 12⟩ (memFinState n) "rupa" 5).total_amount_saved
        = n ∧
      (memFinancial ⟨2026, 10, 12⟩ (memFinState n) "rupa" 5).fully_funded_events
        = n := by
    unfold memFinancial
    simp only [hrows]
    refine ⟨?_, ?_, ?_⟩
    · rw [List.map_replicate]
      have : ((sampleFinEvent (some 1) (some 1)).savings_target.getD 0) = (1 : ℚ) := rfl
      rw [this, List.sum_replicate, nsmul_eq_mul, mul_one]
      exact rnd2_natCast n
    · rw [List.map_replicate]
      have : ((sampleFinEvent (some 1) (some 1)).amount_saved.getD 0) = (1 : ℚ) := rfl
      rw [this, List.sum_replicate, nsmul_eq_mul, mul_one]
      exact rnd2_natCast n
    · exact countP_replicate_of_pos (by decide) n
  refine ⟨hmongo.1, hmongo.2.1, hmongo.2.2, hmem.1, hmem.2.1, hmem.2.2, ?_⟩
  rw [hmongo.1, hmem.1]
  intro hq
  have : (2000 : ℕ) = n := by exact_mod_cast hq
  omega

/-- C10 witness: the cap bites at 2001 financial events. -/
theorem financial_summary_cap_witness :
    (mongoFinancial ⟨2026, 10, 12⟩ (mongoFinState 2001) "rupa" 5).total_savings_target
        = 2000 ∧
    (memFinancial ⟨2026, 10, 12⟩ (memFinState 2001) "rupa" 5).total_savings_target
        = 2001 := by
  have h := financial_summary_cap 2001 (by norm_num)
  exact ⟨h.1, by exact_mod_cast h.2.2.2.1⟩

/-! ### Properties of the stable sort -/

theorem mem_insertOrd {α : Type} {le : α → α → Bool} {x a : α} {l : List α} :
    a ∈ insertOrd le x l ↔ a = x ∨ a ∈ l := by
  induction l with
  | nil => simp [insertOrd]
  | cons y ys ih =>
    unfold insertOrd
    by_cases h : le y x = true
    · rw [if_pos h]
      simp only [List.mem_cons, ih]
      tauto
    · rw [if_neg h]
      simp only [List.mem_cons]

theorem pairwise_insertOrd {α : Type} {le : α → α → Bool}
    (htot : ∀ a b, le a b = true ∨ le b a = true)
    (htrans : ∀ a b c, le a b = true → le b c = true → le a c = true)
    (x : α) {l : List α}
    (hl : l.Pairwise (fun a b => le a b = true)) :
    (insertOrd le x l).Pairwise (fun a b => le a b = true) := by
  induction l with
  | nil => simp [insertOrd]
  | cons y ys ih =>
    rcases List.pairwise_cons.mp hl with ⟨hy, hys⟩
    unfold insertOrd
    by_cases h : le y x = true
    · simp only [h, if_true]
      refine List.pairwise_cons.mpr ⟨?_, ih hys⟩
      intro b hb
      rcases mem_insertOrd.mp hb with rfl | hb
      · exact h
      · exact hy b hb
    · simp only [h, if_false]
      refine List.pairwise_cons.mpr ⟨?_, hl⟩
      intro b hb
      have hx : le x y = true := by
        rcases htot x y with h1 | h1
        · exact h1
        · exact absurd h1 h
      rcases List.mem_cons.mp hb with rfl | hb
      · exact hx
      · exact htrans x y b hx (hy b hb)

theorem pairwise_stableSortBy {α : Type} {le : α → α → Bool}
    (htot : ∀ a b, le a b = true ∨ le b a = true)
    (htrans : ∀ a b c, le a b = true → le b c = true → le a c = true)
    (l : List α) :
    (stableSortBy le l).Pairwise (fun a b => le a b = true) := by
  unfold stableSortBy
  have h : ∀ acc : List α, acc.Pairwise (fun a b => le a b = true) →
      (l.foldl (fun acc x => insertOrd le x acc) acc).Pairwise
        (fun a b => le a b = true) := by
    induction l with
    | nil => intro acc hacc; exact hacc
    | cons x xs ih =>
      intro acc hacc
      exact ih _ (pairwise_insertOrd htot htrans x hacc)
  exact h [] (by simp)

theorem mem_stableSortBy {α : Type} {le : α → α → Bool} {a : α} {l : List α} :
    a ∈ stableSortBy le l ↔ a ∈ l := by
  unfold stableSortBy
  have h : ∀ acc : List α,
      (a ∈ l.foldl (fun acc x => insertOrd le x acc) acc ↔ a ∈ acc ∨ a ∈ l) := by
    induction l with
    | nil => intro acc; simp
    | cons x xs ih =>
      intro acc
      rw [List.foldl_cons, ih (insertOrd le x acc)]
      simp only [mem_insertOrd, List.mem_cons]
      tauto
  rw [h []]
  simp

theorem length_insertOrd {α : Type} (le : α → α → Bool) (x : α) (l : List α) :
    (insertOrd le x l).length = l.length + 1 := by
  induction l with
  | nil => rfl
  | cons y ys ih =>
    unfold insertOrd
    by_cases h : le y x = true
    · simp [h, ih]
    · simp [h]

theorem length_stableSortBy {α : Type} (le : α → α → Bool) (l : List α) :
    (stableSortBy le l).length = l.length := by
  unfold stableSortBy
  have h : ∀ acc : List α,
      (l.foldl (fun acc x => insertOrd le x acc) acc).length =
        acc.length + l.length := by
    induction l with
    | nil => intro acc; simp
    | cons x xs ih =>
      intro acc
      rw [List.foldl_cons, ih (insertOrd le x acc), length_insertOrd]
      simp only [List.length_cons]
      omega
  rw [h []]
  simp

theorem insertOrd_map {α β : Type} (f : α → β) (le : β → β → Bool) (x : α)
    (l : List α) :
    insertOrd le (f x) (l.map f) =
      (insertOrd (fun a b => le (f a) (f b)) x l).map f := by
  induction l with
  | nil => rfl
  | cons y ys ih =>
    unfold insertOrd
    by_cases h : le (f y) (f x) = true
    · simp [h, ih]
    · simp [h]

theorem stableSortBy_map {α β : Type} (f : α → β) (le : β → β → Bool)
    (l : List α) :
    stableSortBy le (l.map f) =
      (stableSortBy (fun a b => le (f a) (f b)) l).map f := by
  unfold stableSortBy
  have h : ∀ acc : List α,
      (l.map f).foldl (fun acc x => insertOrd le x acc) (acc.map f) =
        (l.foldl (fun acc x => insertOrd (fun a b => le (f a) (f b)) x acc)
          acc).map f := by
    induction l with
    | nil => intro acc; simp
    | cons x xs ih =>
      intro acc
      rw [List.map_cons, List.foldl_cons, List.foldl_cons, insertOrd_map f le x acc,
        ih (insertOrd (fun a b => le (f a) (f b)) x acc)]
  exact h []

/-! ### C2 -/

theorem mongoCmp_prio_total (o : SortOrder) (a b : MongoDoc) :
    mongoCmp .priority o a b = true ∨ mongoCmp .priority o b a = true := by
  cases o <;>
    simp only [mongoCmp, Bool.or_eq_true, Bool.and_eq_true, beq_iff_eq,
      decide_eq_true_eq] <;>
    omega

theorem mongoCmp_prio_trans (o : SortOrder) (a b c : MongoDoc) :
    mongoCmp .priority o a b = true → mongoCmp .priority o b c = true →
    mongoCmp .priority o a c = true := by
  cases o <;>
    simp only [mongoCmp, Bool.or_eq_true, Bool.and_eq_true, beq_iff_eq,
      decide_eq_true_eq] <;>
    omega

theorem memCmp_prio_total (o : SortOrder) (a b : StoredEvent) :
    memCmp .priority o a b = true ∨ memCmp .priority o b a = true := by
  cases o <;> simp only [memCmp, decide_eq_true_eq] <;> omega

theorem memCmp_prio_trans (o : SortOrder) (a b c : StoredEvent) :
    memCmp .priority o a b = true → memCmp .priority o b c = true →
    memCmp .priority o a c = true := by
  cases o <;> simp only [memCmp, decide_eq_true_eq] <;> omega

theorem mongo_prio_pair (o : SortOrder) (a b : MongoDoc)
    (hra : a.priority_rank = PRIORITY_RANK a.ev.priority)
    (hrb : b.priority_rank = PRIORITY_RANK b.ev.priority)
    (hab : mongoCmp .priority o a b = true) :
    (o = .asc → PRIORITY_RANK a.ev.priority ≤ PRIORITY_RANK b.ev.priority) ∧
    (o = .desc → PRIORITY_RANK b.ev.priority ≤ PRIORITY_RANK a.ev.priority) ∧
    (PRIORITY_RANK a.ev.priority = PRIORITY_RANK b.ev.priority →
      a.ev.start_date.key ≤ b.ev.start_date.key) := by
  cases o <;>
    simp only [mongoCmp, Bool.or_eq_true, Bool.and_eq_true, beq_iff_eq,
      decide_eq_true_eq] at hab
  · refine ⟨fun _ => ?_, by simp, fun he => ?_⟩
    · rw [← hra, ← hrb]; omega
    · rw [← hra, ← hrb] at he; omega
  · refine ⟨by simp, fun _ => ?_, fun he => ?_⟩
    · rw [← hra, ← hrb]; omega
    · rw [← hra, ← hrb] at he; omega

theorem mem_prio_pair (o : SortOrder) (a b : StoredEvent)
    (hab : memCmp .priority o a b = true) :
    (o = .asc → PRIORITY_RANK a.priority ≤ PRIORITY_RANK b.priority) ∧
    (o = .desc → PRIORITY_RANK b.priority ≤ PRIORITY_RANK a.priority) := by
  cases o <;> simp only [memCmp, decide_eq_true_eq] at hab
  · exact ⟨fun _ => hab, by simp⟩
  · exact ⟨by simp, fun _ => hab⟩

/-- A high-priority planned event used in sorting scenarios. -/
def prioEvent (id : ℕ) (d : PDate) : StoredEvent :=
  { id := id, user_id := "rupa", title := "Milestone", category := "life"
    start_date := d, end_date := none, description := none, notes := none
    status := .planned, priority := .high, timeline_phase := none
    is_financial := false, estimated_cost := none, savings_target := none
    actual_cost := none, amount_saved := none, linked_event_ids := []
    created_at := 0, updated_at := 0, deleted_at := none }

/-- C2 counterexample: the volatile adapter sorts a priority listing by
rank alone — two equal-priority events inserted with descending start
dates come back in insertion order, violating the claimed `startDate`
ascending tie-break. -/
theorem priority_sort_counterexample :
    memList ⟨[prioEvent 0 ⟨2028, 2, 1⟩, prioEvent 1 ⟨2028, 1, 1⟩], 2, 2⟩ "rupa"
        { sort_by := .priority, sort_order := .asc } =
      ([prioEvent 0 ⟨2028, 2, 1⟩, prioEvent 1 ⟨2028, 1, 1⟩], 2) ∧
    PRIORITY_RANK (prioEvent 0 ⟨2028, 2, 1⟩).priority =
      PRIORITY_RANK (prioEvent 1 ⟨2028, 1, 1⟩).priority ∧
    ¬((prioEvent 0 ⟨2028, 2, 1⟩).start_date.key ≤
        (prioEvent 1 ⟨2028, 1, 1⟩).start_date.key) := by
  exact ⟨by decide, rfl, by decide⟩

/-- C2 (amended): for a priority-sorted listing, the persistent adapter
(whose documents carry the correct precomputed rank) returns
consecutive items ordered by priority rank in the requested direction
with `startDate` ascending as the tie-break regardless of the requested
order; the volatile adapter guarantees only the rank ordering — its
rank ties keep insertion order, not `startDate` order. -/
theorem priority_sort_amended (s : MongoState) (vs : MemState) (uid : String)
    (q : ListQuery) (hq : q.sort_by = .priority)
    (hrank : ∀ d ∈ s.docs, d.priority_rank = PRIORITY_RANK d.ev.priority) :
    (∀ items, (mongoList s uid q).1 = some items →
      items.Chain' fun a b =>
        (q.sort_order = .asc →
          PRIORITY_RANK a.priority ≤ PRIORITY_RANK b.priority) ∧
        (q.sort_order = .desc →
          PRIORITY_RANK b.priority ≤ PRIORITY_RANK a.priority) ∧
        (PRIORITY_RANK a.priority = PRIORITY_RANK b.priority →
          a.start_date.key ≤ b.start_date.key)) ∧
    ((memList vs uid q).1.Chain' fun a b =>
      (q.sort_order = .asc →
        PRIORITY_RANK a.priority ≤ PRIORITY_RANK b.priority) ∧
      (q.sort_order = .desc →
        PRIORITY_RANK b.priority ≤ PRIORITY_RANK a.priority)) := by
  constructor
  · intro items hit
    unfold mongoList at hit
    simp only [hq] at hit
    set matched := s.docs.filter (mongoMatch uid q) with hmatched
    set sorted := stableSortBy (mongoCmp .priority q.sort_order) matched with hsorted
    set sliced := (sorted.drop ((q.page - 1) * q.page_size)).take q.page_size
      with hsliced
    have hsub : sliced.Sublist sorted :=
      (List.take_sublist _ _).trans (List.drop_sublist _ _)
    have hpw : sorted.Pairwise
        (fun a b => mongoCmp .priority q.sort_order a b = true) :=
      pairwise_stableSortBy (mongoCmp_prio_total q.sort_order)
        (mongoCmp_prio_trans q.sort_order) matched
    have hpw2 : sliced.Pairwise
        (fun a b => mongoCmp .priority q.sort_order a b = true) :=
      hpw.sublist hsub
    have hitems : items = sliced.map (·.ev) := by
      unfold docsToEvents at hit
      split at hit
      · exact (Option.some.injEq _ _ ▸ hit).symm
      · exact absurd hit (by simp)
    subst hitems
    have hmem : ∀ d ∈ sliced, d.priority_rank = PRIORITY_RANK d.ev.priority := by
      intro d hd
      exact hrank d (List.mem_of_mem_filter (mem_stableSortBy.mp (hsub.subset hd)))
    refine List.Pairwise.chain' (List.pairwise_map.mpr ?_)
    refine hpw2.imp_of_mem ?_
    intro a b ha hb hab
    exact mongo_prio_pair q.sort_order a b (hmem a ha) (hmem b hb) hab
  · have hpw : (memList vs uid q).1.Pairwise
        (fun a b => memCmp .priority q.sort_order a b = true) := by
      unfold memList
      simp only [hq]
      refine List.Pairwise.sublist
        ((List.take_sublist _ _).trans (List.drop_sublist _ _)) ?_
      exact pairwise_stableSortBy (memCmp_prio_total q.sort_order)
        (memCmp_prio_trans q.sort_order) _
    refine List.Pairwise.chain' (hpw.imp ?_)
    intro a b hab
    exact mem_prio_pair q.sort_order a b hab

/-- C2 witness: both clauses at a one-document state whose rank field
matches its priority. -/
theorem priority_sort_amended_witness :
    (∀ items,
      (mongoList (mongoFinState 1) "rupa" { sort_by := .priority }).1 =
          some items →
      items.Chain' fun a b =>
        (SortOrder.asc = .asc →
          PRIORITY_RANK a.priority ≤ PRIORITY_RANK b.priority) ∧
        (SortOrder.asc = .desc →
          PRIORITY_RANK b.priority ≤ PRIORITY_RANK a.priority) ∧
        (PRIORITY_RANK a.priority = PRIORITY_RANK b.priority →
          a.start_date.key ≤ b.start_date.key)) ∧
    ((memList (memFinState 1) "rupa" { sort_by := .priority }).1.Chain'
      fun a b =>
        (SortOrder.asc = .asc →
          PRIORITY_RANK a.priority ≤ PRIORITY_RANK b.priority) ∧
        (SortOrder.asc = .desc →
          PRIORITY_RANK b.priority ≤ PRIORITY_RANK a.priority)) := by
  exact priority_sort_amended (mongoFinState 1) (memFinState 1) "rupa"
    { sort_by := .priority } rfl (by decide)

/-! ### Properties of `updateFirst` and `find?` -/

theorem updateFirst_of_find?_none {α : Type} {p : α → Bool} (f : α → α)
    {l : List α} (h : l.find? p = none) : updateFirst p f l = l := by
  induction l with
  | nil => rfl
  | cons x xs ih =>
    rw [List.find?_cons] at h
    unfold updateFirst
    split at h
    · exact absurd h (by simp)
    · rename_i hx
      rw [if_neg (by simp [hx]), ih h]

theorem updateFirst_decomp {α : Type} {p : α → Bool} (f : α → α)
    {l : List α} {x : α} (h : l.find? p = some x) :
    ∃ l₁ l₂, l = l₁ ++ x :: l₂ ∧ (∀ y ∈ l₁, p y = false) ∧
      updateFirst p f l = l₁ ++ f x :: l₂ := by
  induction l with
  | nil => exact absurd h (by simp)
  | cons z zs ih =>
    rw [List.find?_cons] at h
    split at h
    · rename_i hz
      have hx : z = x := by simpa using h
      subst hx
      exact ⟨[], zs, by simp, by simp, by simp [updateFirst, hz]⟩
    · rename_i hz
      obtain ⟨l₁, l₂, hl, hfalse, hupd⟩ := ih h
      refine ⟨z :: l₁, l₂, by simp [hl], ?_, ?_⟩
      · intro y hy
        rcases List.mem_cons.mp hy with rfl | hy
        · simpa using hz
        · exact hfalse y hy
      · unfold updateFirst
        rw [if_neg (by simp [hz]), hupd]
        simp

theorem mem_updateFirst {α : Type} {p : α → Bool} {f : α → α} {z : α}
    {l : List α} (h : z ∈ updateFirst p f l) :
    z ∈ l ∨ ∃ y ∈ l, p y = true ∧ z = f y := by
  induction l with
  | nil => exact absurd h (by simp [updateFirst])
  | cons x xs ih =>
    unfold updateFirst at h
    by_cases hx : p x = true
    · rw [if_pos hx] at h
      rcases List.mem_cons.mp h with rfl | h
      · exact Or.inr ⟨x, by simp, hx, rfl⟩
      · exact Or.inl (List.mem_cons_of_mem _ h)
    · rw [if_neg hx] at h
      rcases List.mem_cons.mp h with rfl | h
      · exact Or.inl (List.mem_cons_self _ _)
      · rcases ih h with h1 | ⟨y, hy, hpy, hzy⟩
        · exact Or.inl (List.mem_cons_of_mem _ h1)
        · exact Or.inr ⟨y, List.mem_cons_of_mem _ hy, hpy, hzy⟩

theorem find?_append_of_false {α : Type} {p : α → Bool} {l₁ l₂ : List α}
    (h : ∀ y ∈ l₁, p y = false) :
    (l₁ ++ l₂).find? p = l₂.find? p := by
  induction l₁ with
  | nil => rfl
  | cons x xs ih =>
    have hx : p x = false := h x (List.mem_cons_self _ _)
    simp only [List.cons_append, List.find?_cons, hx]
    exact ih fun y hy => h y (List.mem_cons_of_mem _ hy)

/-! ### Soft-delete helper lemmas -/

/-- Physically remove the soft-deleted records (a specification-side
construction: the claim is that results cannot distinguish the two). -/
def MemState.prune (vs : MemState) : MemState :=
  { vs with events := vs.events.filter fun e => e.deleted_at == none }

/-- Physically remove the soft-deleted documents. -/
def MongoState.prune (ms : MongoState) : MongoState :=
  { ms with docs := ms.docs.filter fun d => d.ev.deleted_at == none }

theorem liveUserRows_prune (events : List StoredEvent) (uid : String) :
    liveUserRows (events.filter fun e => e.deleted_at == none) uid =
      liveUserRows events uid := by
  unfold liveUserRows
  rw [List.filter_filter]
  refine List.filter_congr fun e he => ?_
  cases hd : e.deleted_at <;> simp [hd]

theorem memGetEvent_find? {vs : MemState} {uid : String} {id : ℕ}
    {e : StoredEvent} (h : memGetEvent vs uid id = some e) :
    vs.events.find? (fun x => x.id == id) = some e := by
  unfold memGetEvent at h
  cases hf : vs.events.find? (fun x => x.id == id) with
  | none => rw [hf] at h; exact absurd h (by simp)
  | some x =>
    simp only [hf] at h
    by_cases hc : (x.deleted_at == none && x.user_id == uid) = true
    · rw [if_pos hc] at h
      rwa [show x = e by simpa using h] at hf
    · rw [if_neg hc] at h
      exact absurd h (by simp)

theorem memGetEvent_spec {vs : MemState} {uid : String} {id : ℕ}
    {e : StoredEvent} (h : memGetEvent vs uid id = some e) :
    e ∈ vs.events ∧ e.deleted_at = none ∧ e.user_id = uid ∧ e.id = id := by
  have hf := memGetEvent_find? h
  unfold memGetEvent at h
  simp only [hf] at h
  by_cases hc : (e.deleted_at == none && e.user_id == uid) = true
  · simp only [Bool.and_eq_true, beq_iff_eq] at hc
    have hid := List.find?_some hf
    simp only [beq_iff_eq] at hid
    exact ⟨List.mem_of_find?_eq_some hf, hc.1, hc.2, hid⟩
  · rw [if_neg hc] at h
    exact absurd h (by simp)

theorem memList_subset_live (vs : MemState) (uid : String) (q : ListQuery) :
    ∀ e ∈ (memList vs uid q).1, e ∈ liveUserRows vs.events uid := by
  intro e he
  unfold memList at he
  have h1 := ((List.take_sublist _ _).trans (List.drop_sublist _ _)).subset he
  have h2 := mem_stableSortBy.mp h1
  rcases q with ⟨st, c, y, pg, ps, sb, so⟩
  cases st <;> cases c <;> cases y <;> dsimp only at h2 <;>
    repeat' (first
      | exact h2
      | replace h2 := List.mem_of_mem_filter h2)

theorem memList_prune (vs : MemState) (uid : String) (q : ListQuery) :
    memList vs.prune uid q = memList vs uid q := by
  unfold memList MemState.prune
  rw [liveUserRows_prune]

theorem memOverview_prune (vs : MemState) (uid : String) :
    memOverview vs.prune uid = memOverview vs uid := by
  unfold memOverview MemState.prune
  rw [liveUserRows_prune]

theorem memFinancial_prune (today : PDate) (vs : MemState) (uid : String)
    (ny : ℕ) :
    memFinancial today vs.prune uid ny = memFinancial today vs uid ny := by
  unfold memFinancial MemState.prune
  rw [liveUserRows_prune]

theorem find?_memPut {events : List StoredEvent} {id : ℕ} {e : StoredEvent}
    (v : StoredEvent) (hf : events.find? (fun x => x.id == id) = some e)
    (hv : v.id = e.id) :
    (memPut events id v).find? (fun x => x.id == id) = some v := by
  induction events with
  | nil => exact absurd hf (by simp)
  | cons x xs ih =>
    rw [List.find?_cons] at hf
    by_cases hx : (x.id == id) = true
    · simp only [hx] at hf
      have hxe : x = e := by simpa using hf
      have hvid : (v.id == id) = true := by
        rw [beq_iff_eq, hv, ← hxe]
        simpa using hx
      unfold memPut
      rw [List.map_cons, if_pos hx, List.find?_cons]
      simp only [hvid]
    · have hx0 : (x.id == id) = false := by simpa using hx
      simp only [hx0] at hf
      unfold memPut at ih ⊢
      rw [List.map_cons, if_neg hx, List.find?_cons]
      simp only [hx0]
      exact ih hf

theorem memDelete_false_of_get_none {vs : MemState} {uid : String} {id : ℕ}
    (h : memGetEvent vs uid id = none) : (memDelete vs uid id).1 = false := by
  unfold memDelete
  rw [h]

theorem mem_second_delete (vs : MemState) (uid : String) (id : ℕ) :
    (memDelete vs uid id).1 = true →
    (memDelete (memDelete vs uid id).2 uid id).1 = false := by
  intro h1
  cases hg : memGetEvent vs uid id with
  | none =>
    unfold memDelete at h1
    rw [hg] at h1
    exact absurd h1 (by simp)
  | some e =>
    have hstate : (memDelete vs uid id).2 =
        ⟨memPut vs.events id
            { e with deleted_at := some vs.clock, updated_at := vs.clock },
          vs.nextId, vs.clock⟩ := by
      unfold memDelete
      simp only [hg]
    have hg2 : memGetEvent
        ⟨memPut vs.events id
            { e with deleted_at := some vs.clock, updated_at := vs.clock },
          vs.nextId, vs.clock⟩ uid id = none := by
      unfold memGetEvent
      dsimp only
      rw [find?_memPut
        ({ e with deleted_at := some vs.clock, updated_at := vs.clock })
        (memGetEvent_find? hg) rfl]
      simp
    refine memDelete_false_of_get_none ?_
    rw [hstate]
    exact hg2

theorem mongoMatch_live {uid : String} {q : ListQuery} {d : MongoDoc}
    (h : mongoMatch uid q d = true) : d.ev.deleted_at = none := by
  unfold mongoMatch at h
  simp only [Bool.and_eq_true, beq_iff_eq] at h
  exact h.1.1.1.1

theorem filter_prune {p : MongoDoc → Bool}
    (h : ∀ d, p d = true → d.ev.deleted_at = none) (docs : List MongoDoc) :
    (docs.filter fun d => d.ev.deleted_at == none).filter p = docs.filter p := by
  rw [List.filter_filter]
  refine List.filter_congr fun d hd => ?_
  cases hp : p d
  · simp [hp]
  · simp [hp, h d hp]

theorem countP_prune {p : MongoDoc → Bool}
    (h : ∀ d, p d = true → d.ev.deleted_at = none) (docs : List MongoDoc) :
    (docs.filter fun d => d.ev.deleted_at == none).countP p = docs.countP p := by
  rw [List.countP_eq_length_filter, List.countP_eq_length_filter, filter_prune h]

theorem mongoList_prune (ms : MongoState) (uid : String) (q : ListQuery) :
    mongoList ms.prune uid q = mongoList ms uid q := by
  unfold mongoList MongoState.prune
  dsimp only
  rw [filter_prune (fun d hd => mongoMatch_live hd) ms.docs,
    countP_prune (fun d hd => mongoMatch_live hd) ms.docs]

theorem mongoOverview_prune (ms : MongoState) (uid : String) :
    mongoOverview ms.prune uid = mongoOverview ms uid := by
  unfold mongoOverview MongoState.prune
  dsimp only
  rw [filter_prune (fun d hd => ?_) ms.docs]
  simp only [Bool.and_eq_true, beq_iff_eq] at hd
  exact hd.1

theorem mongoFinancial_prune (today : PDate) (ms : MongoState) (uid : String)
    (ny : ℕ) :
    mongoFinancial today ms.prune uid ny = mongoFinancial today ms uid ny := by
  unfold mongoFinancial MongoState.prune
  dsimp only
  rw [filter_prune (fun d hd => ?_) ms.docs]
  simp only [Bool.and_eq_true, beq_iff_eq] at hd
  exact hd.1.1

theorem mongoFindOne_spec {ms : MongoState} {uid : String} {id : ℕ}
    {d : MongoDoc} (h : mongoFindOne ms uid id = some d) :
    d ∈ ms.docs ∧ d.ev.id = id ∧ d.ev.deleted_at = none ∧
      d.ev.user_id = uid := by
  unfold mongoFindOne at h
  have hp := List.find?_some h
  simp only [Bool.and_eq_true, beq_iff_eq] at hp
  exact ⟨List.mem_of_find?_eq_some h, hp.1.1, hp.1.2, hp.2⟩

theorem mongoGet_live {ms : MongoState} {uid : String} {id : ℕ}
    {e : StoredEvent} (h : mongoGet ms uid id = .ok (some e)) :
    e.deleted_at = none := by
  unfold mongoGet at h
  cases hf : mongoFindOne ms uid id with
  | none => rw [hf] at h; exact absurd h (by simp)
  | some d =>
    simp only [hf] at h
    cases hdoc : docToEvent d with
    | none => rw [hdoc] at h; exact absurd h (by simp)
    | some e2 =>
      rw [hdoc] at h
      have he : e2 = e := by simpa using h
      have : e2 = d.ev := by
        unfold docToEvent at hdoc
        split at hdoc
        · simpa using hdoc.symm
        · exact absurd hdoc (by simp)
      rw [← he, this]
      exact (mongoFindOne_spec hf).2.2.1

theorem mongoList_live {ms : MongoState} {uid : String} {q : ListQuery}
    {items : List StoredEvent} (h : (mongoList ms uid q).1 = some items) :
    ∀ e ∈ items, e.deleted_at = none := by
  intro e he
  unfold mongoList at h
  dsimp only at h
  unfold docsToEvents at h
  split at h
  · have hitems := (Option.some.inj h).symm
    rw [hitems] at he
    obtain ⟨d, hd, hde⟩ := List.mem_map.mp he
    have h1 := ((List.take_sublist _ _).trans (List.drop_sublist _ _)).subset hd
    have h2 := mem_stableSortBy.mp h1
    have h3 := List.of_mem_filter h2
    rw [← hde]
    exact mongoMatch_live h3
  · exact absurd h (by simp)

theorem mongoDelete_false_of_none {ms : MongoState} {uid : String} {id : ℕ}
    (h : mongoFindOne ms uid id = none) : (mongoDelete ms uid id).1 = false := by
  unfold mongoDelete
  rw [h]

theorem mongo_second_delete (ms : MongoState) (uid : String) (id : ℕ)
    (hnodup : (ms.docs.map fun d => d.ev.id).Nodup) :
    (mongoDelete ms uid id).1 = true →
    (mongoDelete (mongoDelete ms uid id).2 uid id).1 = false := by
  intro h1
  cases hf : mongoFindOne ms uid id with
  | none =>
    unfold mongoDelete at h1
    rw [hf] at h1
    exact absurd h1 (by simp)
  | some d =>
    have hspec := mongoFindOne_spec hf
    have hfind : ms.docs.find? (fun x =>
        x.ev.id == id && x.ev.deleted_at == none && x.ev.user_id == uid) =
        some d := hf
    obtain ⟨l₁, l₂, hl, hfalse, hupd⟩ := updateFirst_decomp
      (fun x => { x with ev :=
        { x.ev with deleted_at := some ms.clock, updated_at := ms.clock } })
      hfind
    have hstate : (mongoDelete ms uid id).2 =
        ⟨updateFirst
          (fun x => x.ev.id == id && x.ev.deleted_at == none &&
            x.ev.user_id == uid)
          (fun x => { x with ev :=
            { x.ev with deleted_at := some ms.clock, updated_at := ms.clock } })
          ms.docs, ms.nextId, ms.clock⟩ := by
      unfold mongoDelete mongoFindOne
      simp only [hfind]
    have hl₂ : ∀ y ∈ l₂,
        (y.ev.id == id && y.ev.deleted_at == none && y.ev.user_id == uid) =
          false := by
      intro y hy
      have hnd : (d.ev.id :: l₂.map fun x => x.ev.id).Nodup := by
        refine hnodup.sublist ?_
        rw [hl, List.map_append, List.map_cons]
        exact List.sublist_append_right _ _
      have hnotmem := (List.nodup_cons.mp hnd).1
      cases hp : (y.ev.id == id && y.ev.deleted_at == none &&
          y.ev.user_id == uid)
      · rfl
      · exfalso
        simp only [Bool.and_eq_true, beq_iff_eq] at hp
        exact hnotmem (List.mem_map.mpr ⟨y, hy, by rw [hp.1.1, hspec.2.1]⟩)
    have hfind2 : mongoFindOne (mongoDelete ms uid id).2 uid id = none := by
      rw [hstate]
      unfold mongoFindOne
      dsimp only
      rw [hupd, find?_append_of_false hfalse, List.find?_cons]
      have hl2n : List.find? (fun x =>
          x.ev.id == id && x.ev.deleted_at == none && x.ev.user_id == uid)
          l₂ = none :=
        List.find?_eq_none.mpr fun y hy => by simp [hl₂ y hy]
      simp [hl2n]
    exact mongoDelete_false_of_none hfind2

theorem id_inj {l : List StoredEvent} (h : (l.map fun x => x.id).Nodup)
    {a b : StoredEvent} (ha : a ∈ l) (hb : b ∈ l) (hab : a.id = b.id) :
    a = b :=
  List.inj_on_of_nodup_map h ha hb hab

theorem docId_inj {l : List MongoDoc} (h : (l.map fun d => d.ev.id).Nodup)
    {a b : MongoDoc} (ha : a ∈ l) (hb : b ∈ l) (hab : a.ev.id = b.ev.id) :
    a = b :=
  List.inj_on_of_nodup_map h ha hb hab

theorem memStep_preserve_deleted (today : PDate) (vs : MemState) (op : Op)
    {e : StoredEvent}
    (hnodup : (vs.events.map fun x => x.id).Nodup)
    (hfresh : ∀ x ∈ vs.events, x.id < vs.nextId)
    (he : e ∈ vs.events) (hdel : e.deleted_at ≠ none) :
    ∀ e2 ∈ ((memStep today vs op).2).events, e2.id = e.id →
      e2.deleted_at ≠ none := by
  intro e2 he2 hid
  cases op with
  | create uid p =>
    simp only [memStep, memCreate] at he2
    rcases List.mem_append.mp he2 with h2 | h2
    · rw [id_inj hnodup h2 he hid]
      exact hdel
    · have h3 : e2 =
          EventCreate.stored { p with user_id := uid } vs.nextId vs.clock := by
        simpa using h2
      have h4 : e2.id = vs.nextId := by rw [h3]; rfl
      have h5 := hfresh e he
      omega
  | get uid i =>
    simp only [memStep] at he2
    rw [id_inj hnodup he2 he hid]
    exact hdel
  | update uid i u =>
    simp only [memStep, memUpdate] at he2
    cases hg : memGetEvent vs uid i with
    | none =>
      simp only [hg] at he2
      rw [id_inj hnodup he2 he hid]
      exact hdel
    | some got =>
      simp only [hg] at he2
      obtain ⟨x, hx, hxe⟩ := List.mem_map.mp he2
      by_cases hxid : (x.id == i) = true
      · rw [if_pos hxid] at hxe
        have hgotid : got.id = i := (memGetEvent_spec hg).2.2.2
        have h2id : e2.id = got.id := by
          rw [← hxe]
          simp [applyUpdate]
        have hgote : got = e :=
          id_inj hnodup (memGetEvent_spec hg).1 he (by omega)
        have := (memGetEvent_spec hg).2.1
        rw [hgote] at this
        exact absurd this hdel
      · rw [if_neg hxid] at hxe
        rw [← hxe] at hid ⊢
        rw [id_inj hnodup hx he hid]
        exact hdel
  | delete uid i =>
    simp only [memStep, memDelete] at he2
    cases hg : memGetEvent vs uid i with
    | none =>
      simp only [hg] at he2
      rw [id_inj hnodup he2 he hid]
      exact hdel
    | some got =>
      simp only [hg] at he2
      obtain ⟨x, hx, hxe⟩ := List.mem_map.mp he2
      by_cases hxid : (x.id == i) = true
      · rw [if_pos hxid] at hxe
        rw [← hxe]
        simp
      · rw [if_neg hxid] at hxe
        rw [← hxe] at hid ⊢
        rw [id_inj hnodup hx he hid]
        exact hdel
  | list uid lq =>
    simp only [memStep] at he2
    rw [id_inj hnodup he2 he hid]
    exact hdel
  | overview uid =>
    simp only [memStep] at he2
    rw [id_inj hnodup he2 he hid]
    exact hdel
  | financial uid ny =>
    simp only [memStep] at he2
    rw [id_inj hnodup he2 he hid]
    exact hdel

theorem mongoStep_preserve_deleted (today : PDate) (ms : MongoState) (op : Op)
    {d : MongoDoc}
    (hnodup : (ms.docs.map fun x => x.ev.id).Nodup)
    (hfresh : ∀ x ∈ ms.docs, x.ev.id < ms.nextId)
    (hd : d ∈ ms.docs) (hdel : d.ev.deleted_at ≠ none) :
    ∀ d2 ∈ ((mongoStep today ms op).2).docs, d2.ev.id = d.ev.id →
      d2.ev.deleted_at ≠ none := by
  intro d2 hd2 hid
  cases op with
  | create uid p =>
    simp only [mongoStep, mongoCreate] at hd2
    rcases List.mem_append.mp hd2 with h2 | h2
    · rw [docId_inj hnodup h2 hd hid]
      exact hdel
    · have h3 : d2.ev.id = ms.nextId := by
        have : d2 = ⟨EventCreate.stored { p with user_id := uid } ms.nextId
            ms.clock, PRIORITY_RANK p.priority⟩ := by
          simpa using h2
        rw [this]
        rfl
      have h5 := hfresh d hd
      omega
  | get uid i =>
    simp only [mongoStep] at hd2
    rw [docId_inj hnodup hd2 hd hid]
    exact hdel
  | update uid i u =>
    simp only [mongoStep, mongoUpdate] at hd2
    by_cases hemp : u.isEmpty = true
    · rw [if_pos hemp] at hd2
      rw [docId_inj hnodup hd2 hd hid]
      exact hdel
    · rw [if_neg hemp] at hd2
      cases hfo : mongoFindOne ms uid i with
      | none =>
        simp only [hfo] at hd2
        rw [docId_inj hnodup hd2 hd hid]
        exact hdel
      | some found =>
        simp only [hfo] at hd2
        rcases mem_updateFirst hd2 with h2 | ⟨y, hy, hpy, h2⟩
        · rw [docId_inj hnodup h2 hd hid]
          exact hdel
        · simp only [Bool.and_eq_true, beq_iff_eq] at hpy
          have hyid : d2.ev.id = y.ev.id := by rw [h2]; rfl
          have hyd : y = d := docId_inj hnodup hy hd (by omega)
          rw [hyd] at hpy
          exact absurd hpy.1.2 hdel
  | delete uid i =>
    simp only [mongoStep, mongoDelete] at hd2
    cases hfo : mongoFindOne ms uid i with
    | none =>
      simp only [hfo] at hd2
      rw [docId_inj hnodup hd2 hd hid]
      exact hdel
    | some found =>
      simp only [hfo] at hd2
      rcases mem_updateFirst hd2 with h2 | ⟨y, hy, hpy, h2⟩
      · rw [docId_inj hnodup h2 hd hid]
        exact hdel
      · rw [h2]
        simp
  | list uid lq =>
    simp only [mongoStep] at hd2
    rw [docId_inj hnodup hd2 hd hid]
    exact hdel
  | overview uid =>
    simp only [mongoStep] at hd2
    rw [docId_inj hnodup hd2 hd hid]
    exact hdel
  | financial uid ny =>
    simp only [mongoStep] at hd2
    rw [docId_inj hnodup hd2 hd hid]
    exact hdel

/-! ### C6 -/

/-- C6: soft-deleted events are invisible and stay that way, in both
adapters: a get never returns a deleted record; listed items are never
deleted; list, overview-summary and financial-summary results are
unchanged if the soft-deleted records are physically removed (so a
deleted record cannot influence any of them, for any user); a second
delete of an already-deleted id returns false; and every operation
leaves a deleted record deleted (ids are unique and below the id
counter, as the adapters guarantee). -/
theorem soft_delete_never_visible (today : PDate) (vs : MemState)
    (ms : MongoState) (uid : String) (id : ℕ) (q : ListQuery) (ny : ℕ)
    (hnodupV : (vs.events.map fun x => x.id).Nodup)
    (hfreshV : ∀ x ∈ vs.events, x.id < vs.nextId)
    (hnodupM : (ms.docs.map fun x => x.ev.id).Nodup)
    (hfreshM : ∀ x ∈ ms.docs, x.ev.id < ms.nextId) :
    (∀ e, memGetEvent vs uid id = some e → e.deleted_at = none) ∧
    (∀ e ∈ (memList vs uid q).1, e.deleted_at = none) ∧
    memList vs.prune uid q = memList vs uid q ∧
    memOverview vs.prune uid = memOverview vs uid ∧
    memFinancial today vs.prune uid ny = memFinancial today vs uid ny ∧
    ((memDelete vs uid id).1 = true →
      (memDelete (memDelete vs uid id).2 uid id).1 = false) ∧
    (∀ op, ∀ e ∈ vs.events, e.deleted_at ≠ none →
      ∀ e2 ∈ ((memStep today vs op).2).events, e2.id = e.id →
        e2.deleted_at ≠ none) ∧
    (∀ e, mongoGet ms uid id = .ok (some e) → e.deleted_at = none) ∧
    (∀ items, (mongoList ms uid q).1 = some items →
      ∀ e ∈ items, e.deleted_at = none) ∧
    mongoList ms.prune uid q = mongoList ms uid q ∧
    mongoOverview ms.prune uid = mongoOverview ms uid ∧
    mongoFinancial today ms.prune uid ny = mongoFinancial today ms uid ny ∧
    ((mongoDelete ms uid id).1 = true →
      (mongoDelete (mongoDelete ms uid id).2 uid id).1 = false) ∧
    (∀ op, ∀ d ∈ ms.docs, d.ev.deleted_at ≠ none →
      ∀ d2 ∈ ((mongoStep today ms op).2).docs, d2.ev.id = d.ev.id →
        d2.ev.deleted_at ≠ none) := by
  refine ⟨fun e h => (memGetEvent_spec h).2.1, ?_,
    memList_prune vs uid q, memOverview_prune vs uid,
    memFinancial_prune today vs uid ny, mem_second_delete vs uid id,
    fun op e he hdel => memStep_preserve_deleted today vs op hnodupV hfreshV
      he hdel,
    fun e h => mongoGet_live h, fun items h => mongoList_live h,
    mongoList_prune ms uid q, mongoOverview_prune ms uid,
    mongoFinancial_prune today ms uid ny,
    mongo_second_delete ms uid id hnodupM,
    fun op d hdm hdel => mongoStep_preserve_deleted today ms op hnodupM
      hfreshM hdm hdel⟩
  intro e he
  have h1 := memList_subset_live vs uid q e he
  have h2 := List.of_mem_filter h1
  simp only [Bool.and_eq_true, beq_iff_eq] at h2
  exact h2.1

/-- C6 witness: the prune-invariance clauses at a one-record state
holding a soft-deleted event (and a collection holding its tombstoned
document). -/
theorem soft_delete_never_visible_witness :
    memList (MemState.prune ⟨[{ spanEvent with deleted_at := some 0 }], 1, 1⟩)
        "rupa" {} =
      memList ⟨[{ spanEvent with deleted_at := some 0 }], 1, 1⟩ "rupa" {} ∧
    mongoList
        (MongoState.prune
          ⟨[⟨{ spanEvent with deleted_at := some 0 }, 2⟩], 1, 1⟩) "rupa" {} =
      mongoList ⟨[⟨{ spanEvent with deleted_at := some 0 }, 2⟩], 1, 1⟩
        "rupa" {} := by
  have h := soft_delete_never_visible ⟨2026, 10, 12⟩
    ⟨[{ spanEvent with deleted_at := some 0 }], 1, 1⟩
    ⟨[⟨{ spanEvent with deleted_at := some 0 }, 2⟩], 1, 1⟩ "rupa" 0 {} 5
    (by decide) (by decide) (by decide) (by decide)
  exact ⟨h.2.2.1, h.2.2.2.2.2.2.2.2.2.1⟩

/-! ### User-isolation helper lemmas -/

/-- Keep only one user's records (specification-side construction: the
claim is that the user's results cannot distinguish the two states). -/
def MemState.restrict (vs : MemState) (uid : String) : MemState :=
  { vs with events := vs.events.filter fun e => e.user_id == uid }

/-- Keep only one user's documents. -/
def MongoState.restrict (ms : MongoState) (uid : String) : MongoState :=
  { ms with docs := ms.docs.filter fun d => d.ev.user_id == uid }

theorem liveUserRows_restrict (events : List StoredEvent) (uid : String) :
    liveUserRows (events.filter fun e => e.user_id == uid) uid =
      liveUserRows events uid := by
  unfold liveUserRows
  rw [List.filter_filter]
  refine List.filter_congr fun e he => ?_
  cases hu : (e.user_id == uid) <;> simp [hu]

theorem filter_restrict {p : MongoDoc → Bool} {uid : String}
    (h : ∀ d, p d = true → d.ev.user_id = uid) (docs : List MongoDoc) :
    (docs.filter fun d => d.ev.user_id == uid).filter p = docs.filter p := by
  rw [List.filter_filter]
  refine List.filter_congr fun d hd => ?_
  cases hp : p d
  · simp [hp]
  · simp [hp, h d hp]

theorem countP_restrict {p : MongoDoc → Bool} {uid : String}
    (h : ∀ d, p d = true → d.ev.user_id = uid) (docs : List MongoDoc) :
    (docs.filter fun d => d.ev.user_id == uid).countP p = docs.countP p := by
  rw [List.countP_eq_length_filter, List.countP_eq_length_filter,
    filter_restrict h]

theorem mongoMatch_user {uid : String} {q : ListQuery} {d : MongoDoc}
    (h : mongoMatch uid q d = true) : d.ev.user_id = uid := by
  unfold mongoMatch at h
  simp only [Bool.and_eq_true, beq_iff_eq] at h
  exact h.1.1.1.2

theorem memList_restrict (vs : MemState) (uid : String) (q : ListQuery) :
    memList (vs.restrict uid) uid q = memList vs uid q := by
  unfold memList MemState.restrict
  rw [liveUserRows_restrict]

theorem memOverview_restrict (vs : MemState) (uid : String) :
    memOverview (vs.restrict uid) uid = memOverview vs uid := by
  unfold memOverview MemState.restrict
  rw [liveUserRows_restrict]

theorem memFinancial_restrict (today : PDate) (vs : MemState) (uid : String)
    (ny : ℕ) :
    memFinancial today (vs.restrict uid) uid ny = memFinancial today vs uid ny := by
  unfold memFinancial MemState.restrict
  rw [liveUserRows_restrict]

theorem mongoList_restrict (ms : MongoState) (uid : String) (q : ListQuery) :
    mongoList (ms.restrict uid) uid q = mongoList ms uid q := by
  unfold mongoList MongoState.restrict
  dsimp only
  rw [filter_restrict (fun d hd => mongoMatch_user hd) ms.docs,
    countP_restrict (fun d hd => mongoMatch_user hd) ms.docs]

theorem mongoOverview_restrict (ms : MongoState) (uid : String) :
    mongoOverview (ms.restrict uid) uid = mongoOverview ms uid := by
  unfold mongoOverview MongoState.restrict
  dsimp only
  rw [filter_restrict (fun d hd => ?_) ms.docs]
  simp only [Bool.and_eq_true, beq_iff_eq] at hd
  exact hd.2

theorem mongoFinancial_restrict (today : PDate) (ms : MongoState)
    (uid : String) (ny : ℕ) :
    mongoFinancial today (ms.restrict uid) uid ny =
      mongoFinancial today ms uid ny := by
  unfold mongoFinancial MongoState.restrict
  dsimp only
  rw [filter_restrict (fun d hd => ?_) ms.docs]
  simp only [Bool.and_eq_true, beq_iff_eq] at hd
  exact hd.1.2

theorem find?_filter_compat {α : Type} {keep p : α → Bool}
    (hcompat : ∀ x, p x = true → keep x = true) (l : List α) :
    (l.filter keep).find? p = l.find? p := by
  induction l with
  | nil => rfl
  | cons x xs ih =>
    by_cases hk : keep x = true
    · rw [List.filter_cons_of_pos hk, List.find?_cons, List.find?_cons]
      cases hp : p x
      · exact ih
      · rfl
    · have hp : p x = false := by
        cases hp : p x
        · rfl
        · exact absurd (hcompat x hp) hk
      rw [List.filter_cons_of_neg (by simp [hk]), List.find?_cons]
      simp only [hp]
      exact ih

theorem mongoFindOne_restrict (ms : MongoState) (uid : String) (id : ℕ) :
    mongoFindOne (ms.restrict uid) uid id = mongoFindOne ms uid id := by
  unfold mongoFindOne MongoState.restrict
  dsimp only
  refine find?_filter_compat (fun d hd => ?_) ms.docs
  simp only [Bool.and_eq_true, beq_iff_eq] at hd
  simp [hd.2]

theorem mongoGet_restrict (ms : MongoState) (uid : String) (id : ℕ) :
    mongoGet (ms.restrict uid) uid id = mongoGet ms uid id := by
  unfold mongoGet
  rw [mongoFindOne_restrict]

theorem getMatch_restrict (uid : String) (id : ℕ) :
    ∀ l : List StoredEvent, (l.map fun e => e.id).Nodup →
    (match (l.filter fun e => e.user_id == uid).find? (fun e => e.id == id) with
      | none => none
      | some e =>
        if (e.deleted_at == none && e.user_id == uid) = true then some e
        else none) =
    (match l.find? (fun e => e.id == id) with
      | none => none
      | some e =>
        if (e.deleted_at == none && e.user_id == uid) = true then some e
        else none) := by
  intro l
  induction l with
  | nil => intro h; rfl
  | cons x xs ih =>
    intro hnodup
    rw [List.map_cons, List.nodup_cons] at hnodup
    obtain ⟨hnx, hnt⟩ := hnodup
    by_cases hu : (x.user_id == uid) = true
    · simp only [List.filter_cons, hu, if_true, List.find?_cons]
      cases hx : (x.id == id)
      · exact ih hnt
      · rfl
    · have hu0 : (x.user_id == uid) = false := by simpa using hu
      simp only [List.filter_cons, hu0, Bool.false_eq_true, if_false,
        List.find?_cons]
      cases hx : (x.id == id)
      · exact ih hnt
      · have hxid : x.id = id := by simpa using hx
        have hnone : (xs.filter fun e => e.user_id == uid).find?
            (fun e => e.id == id) = none := by
          refine List.find?_eq_none.mpr fun y hy => ?_
          have hyx : y ∈ xs := List.mem_of_mem_filter hy
          have hyid : y.id ≠ id := by
            intro hyid
            exact hnx (List.mem_map.mpr ⟨y, hyx, by rw [hyid, hxid]⟩)
          simp [hyid]
        rw [hnone]
        have hcond : (x.deleted_at == none && x.user_id == uid) = false := by
          simp [hu0]
        simp [hcond]

theorem memGetEvent_restrict (vs : MemState) (uid : String) (id : ℕ)
    (hnodup : (vs.events.map fun x => x.id).Nodup) :
    memGetEvent (vs.restrict uid) uid id = memGetEvent vs uid id := by
  unfold memGetEvent MemState.restrict
  dsimp only
  exact getMatch_restrict uid id vs.events hnodup

theorem filter_updateFirst {α : Type} {p keep : α → Bool} {f : α → α}
    (h : ∀ x, p x = true → keep x = false ∧ keep (f x) = false)
    (l : List α) :
    (updateFirst p f l).filter keep = l.filter keep := by
  induction l with
  | nil => rfl
  | cons x xs ih =>
    unfold updateFirst
    by_cases hp : p x = true
    · rw [if_pos hp]
      rw [List.filter_cons_of_neg (by simp [(h x hp).2]),
        List.filter_cons_of_neg (by simp [(h x hp).1])]
    · rw [if_neg hp]
      by_cases hk : keep x = true
      · rw [List.filter_cons_of_pos hk, List.filter_cons_of_pos hk, ih]
      · rw [List.filter_cons_of_neg (by simp [Bool.not_eq_true] at hk ⊢; exact hk),
          List.filter_cons_of_neg (by simp [Bool.not_eq_true] at hk ⊢; exact hk)]
        exact ih

theorem filter_memPut {keep : StoredEvent → Bool} (events : List StoredEvent)
    (id : ℕ) (v : StoredEvent) (hv : keep v = false)
    (hall : ∀ x ∈ events, x.id = id → keep x = false) :
    (memPut events id v).filter keep = events.filter keep := by
  unfold memPut
  induction events with
  | nil => rfl
  | cons x xs ih =>
    rw [List.map_cons]
    by_cases hx : (x.id == id) = true
    · rw [if_pos hx]
      have hxk : keep x = false :=
        hall x (List.mem_cons_self _ _) (by simpa using hx)
      rw [List.filter_cons_of_neg (by simp [hv]),
        List.filter_cons_of_neg (by simp [hxk])]
      exact ih fun y hy => hall y (List.mem_cons_of_mem _ hy)
    · rw [if_neg hx]
      by_cases hk : keep x = true
      · rw [List.filter_cons_of_pos hk, List.filter_cons_of_pos hk,
          ih fun y hy => hall y (List.mem_cons_of_mem _ hy)]
      · rw [List.filter_cons_of_neg (by simp [Bool.not_eq_true] at hk ⊢; exact hk),
          List.filter_cons_of_neg (by simp [Bool.not_eq_true] at hk ⊢; exact hk)]
        exact ih fun y hy => hall y (List.mem_cons_of_mem _ hy)

theorem memGetEvent_none_of_other {vs : MemState} {uid : String} {id : ℕ}
    (h : ∀ x ∈ vs.events, x.id = id → x.user_id ≠ uid) :
    memGetEvent vs uid id = none := by
  unfold memGetEvent
  cases hf : vs.events.find? (fun e => e.id == id) with
  | none => rfl
  | some e =>
    have he := List.mem_of_find?_eq_some hf
    have hid : e.id = id := by simpa using List.find?_some hf
    have hcond : (e.deleted_at == none && e.user_id == uid) = false := by
      simp [h e he hid]
    simp [hcond]

theorem mongoFindOne_none_of_other {ms : MongoState} {uid : String} {id : ℕ}
    (h : ∀ d ∈ ms.docs, d.ev.id = id → d.ev.user_id ≠ uid) :
    mongoFindOne ms uid id = none := by
  unfold mongoFindOne
  refine List.find?_eq_none.mpr fun d hd => ?_
  cases hp : (d.ev.id == id && d.ev.deleted_at == none &&
      d.ev.user_id == uid)
  · simp
  · exfalso
    simp only [Bool.and_eq_true, beq_iff_eq] at hp
    exact h d hd hp.1.1 hp.2

theorem memUpdate_other_users (vs : MemState) (uid : String) (id : ℕ)
    (u : EventUpdate) (hnodup : (vs.events.map fun x => x.id).Nodup) :
    (memUpdate vs uid id u).2.events.filter (fun e => !(e.user_id == uid)) =
      vs.events.filter fun e => !(e.user_id == uid) := by
  unfold memUpdate
  cases hg : memGetEvent vs uid id with
  | none => rfl
  | some got =>
    simp only [hg]
    refine filter_memPut _ _ _ ?_ ?_
    · simp [applyUpdate, (memGetEvent_spec hg).2.2.1]
    · intro x hx hxid
      have hgotid : got.id = id := (memGetEvent_spec hg).2.2.2
      have hx2 : x = got := id_inj hnodup hx (memGetEvent_spec hg).1 (by omega)
      rw [hx2]
      simp [(memGetEvent_spec hg).2.2.1]

theorem memDelete_other_users (vs : MemState) (uid : String) (id : ℕ)
    (hnodup : (vs.events.map fun x => x.id).Nodup) :
    (memDelete vs uid id).2.events.filter (fun e => !(e.user_id == uid)) =
      vs.events.filter fun e => !(e.user_id == uid) := by
  unfold memDelete
  cases hg : memGetEvent vs uid id with
  | none => rfl
  | some got =>
    simp only [hg]
    refine filter_memPut _ _ _ ?_ ?_
    · simp [(memGetEvent_spec hg).2.2.1]
    · intro x hx hxid
      have hgotid : got.id = id := (memGetEvent_spec hg).2.2.2
      have hx2 : x = got := id_inj hnodup hx (memGetEvent_spec hg).1 (by omega)
      rw [hx2]
      simp [(memGetEvent_spec hg).2.2.1]

theorem mongoUpdate_other_users (ms : MongoState) (uid : String) (id : ℕ)
    (u : EventUpdate) :
    (mongoUpdate ms uid id u).2.docs.filter (fun d => !(d.ev.user_id == uid)) =
      ms.docs.filter fun d => !(d.ev.user_id == uid) := by
  unfold mongoUpdate
  by_cases hemp : u.isEmpty = true
  · rw [if_pos hemp]
  · rw [if_neg hemp]
    cases hfo : mongoFindOne ms uid id with
    | none => simp only
    | some found =>
      simp only
      refine filter_updateFirst (fun d hd => ?_) ms.docs
      simp only [Bool.and_eq_true, beq_iff_eq] at hd
      exact ⟨by simp [hd.2], by simp [mongoApplySet, applyUpdate, hd.2]⟩

theorem mongoDelete_other_users (ms : MongoState) (uid : String) (id : ℕ) :
    (mongoDelete ms uid id).2.docs.filter (fun d => !(d.ev.user_id == uid)) =
      ms.docs.filter fun d => !(d.ev.user_id == uid) := by
  unfold mongoDelete
  cases hfo : mongoFindOne ms uid id with
  | none => simp only
  | some found =>
    simp only
    refine filter_updateFirst (fun d hd => ?_) ms.docs
    simp only [Bool.and_eq_true, beq_iff_eq] at hd
    exact ⟨by simp [hd.2], by simp [hd.2]⟩

/-! ### C7 -/

/-- C7: per-user isolation in both adapters.  Every read under a user's
identity gives the same result on the state restricted to that user's
records, so other users' events are never visible or countable; a get,
update or delete aimed at a record that does not belong to the user
comes back not-found/false and leaves the state unchanged; updates and
deletes never modify another user's records; and create stores the
request's trusted user id on the new record. -/
theorem user_isolation (today : PDate) (vs : MemState) (ms : MongoState)
    (uid : String) (id : ℕ) (q : ListQuery) (ny : ℕ) (p : EventCreate)
    (u : EventUpdate)
    (hnodupV : (vs.events.map fun x => x.id).Nodup) :
    memList (vs.restrict uid) uid q = memList vs uid q ∧
    memOverview (vs.restrict uid) uid = memOverview vs uid ∧
    memFinancial today (vs.restrict uid) uid ny = memFinancial today vs uid ny ∧
    memGetEvent (vs.restrict uid) uid id = memGetEvent vs uid id ∧
    mongoList (ms.restrict uid) uid q = mongoList ms uid q ∧
    mongoOverview (ms.restrict uid) uid = mongoOverview ms uid ∧
    mongoFinancial today (ms.restrict uid) uid ny =
      mongoFinancial today ms uid ny ∧
    mongoGet (ms.restrict uid) uid id = mongoGet ms uid id ∧
    ((∀ x ∈ vs.events, x.id = id → x.user_id ≠ uid) →
      memGetEvent vs uid id = none ∧ memUpdate vs uid id u = (none, vs) ∧
      memDelete vs uid id = (false, vs)) ∧
    ((∀ d ∈ ms.docs, d.ev.id = id → d.ev.user_id ≠ uid) →
      mongoGet ms uid id = .ok none ∧
      mongoUpdate ms uid id u = (.ok none, ms) ∧
      mongoDelete ms uid id = (false, ms)) ∧
    ((memUpdate vs uid id u).2.events.filter (fun e => !(e.user_id == uid)) =
      vs.events.filter fun e => !(e.user_id == uid)) ∧
    ((memDelete vs uid id).2.events.filter (fun e => !(e.user_id == uid)) =
      vs.events.filter fun e => !(e.user_id == uid)) ∧
    ((mongoUpdate ms uid id u).2.docs.filter (fun d => !(d.ev.user_id == uid)) =
      ms.docs.filter fun d => !(d.ev.user_id == uid)) ∧
    ((mongoDelete ms uid id).2.docs.filter (fun d => !(d.ev.user_id == uid)) =
      ms.docs.filter fun d => !(d.ev.user_id == uid)) ∧
    (memCreate vs { p with user_id := uid }).1.user_id = uid ∧
    ((memCreate vs { p with user_id := uid }).2.events =
      vs.events ++ [(memCreate vs { p with user_id := uid }).1]) ∧
    ((mongoCreate ms { p with user_id := uid }).2.docs = ms.docs ++
      [⟨EventCreate.stored { p with user_id := uid } ms.nextId ms.clock,
        PRIORITY_RANK p.priority⟩]) ∧
    (EventCreate.stored { p with user_id := uid } ms.nextId
      ms.clock).user_id = uid := by
  refine ⟨memList_restrict vs uid q, memOverview_restrict vs uid,
    memFinancial_restrict today vs uid ny,
    memGetEvent_restrict vs uid id hnodupV,
    mongoList_restrict ms uid q, mongoOverview_restrict ms uid,
    mongoFinancial_restrict today ms uid ny, mongoGet_restrict ms uid id,
    ?_, ?_,
    memUpdate_other_users vs uid id u hnodupV,
    memDelete_other_users vs uid id hnodupV,
    mongoUpdate_other_users ms uid id u,
    mongoDelete_other_users ms uid id,
    rfl, rfl, rfl, rfl⟩
  · intro h
    have hg := memGetEvent_none_of_other h
    refine ⟨hg, ?_, ?_⟩
    · unfold memUpdate
      rw [hg]
    · unfold memDelete
      rw [hg]
  · intro h
    have hfo := mongoFindOne_none_of_other h
    have hget : mongoGet ms uid id = .ok none := by
      unfold mongoGet
      rw [hfo]
    refine ⟨hget, ?_, ?_⟩
    · unfold mongoUpdate
      by_cases hemp : u.isEmpty = true
      · rw [if_pos hemp, hget]
      · rw [if_neg hemp, hfo]
    · unfold mongoDelete
      rw [hfo]

/-- C7 witness: isolation at a state holding one event owned by "alex",
queried under "rupa". -/
theorem user_isolation_witness :
    memGetEvent ⟨[{ spanEvent with user_id := "alex" }], 1, 1⟩ "rupa" 0 =
        none ∧
    mongoGet ⟨[⟨{ spanEvent with user_id := "alex" }, 2⟩], 1, 1⟩ "rupa" 0 =
        .ok none := by
  have h := user_isolation ⟨2026, 10, 12⟩
    ⟨[{ spanEvent with user_id := "alex" }], 1, 1⟩
    ⟨[⟨{ spanEvent with user_id := "alex" }, 2⟩], 1, 1⟩ "rupa" 0 {} 5
    { title := "T", category := "c", start_date := ⟨2028, 1, 1⟩ } {}
    (by decide)
  exact ⟨(h.2.2.2.2.2.2.2.2.1 (by decide)).1,
    (h.2.2.2.2.2.2.2.2.2.1 (by decide)).1⟩

/-! ### C8 -/

/-- The claim's matching predicate: a live, user-scoped record passing
the optional status/category/year filters, with the year filter read as
"the start date's calendar year equals the requested year". -/
def specMatches (uid : String) (q : ListQuery) (e : StoredEvent) : Bool :=
  e.deleted_at == none && e.user_id == uid &&
  (match q.status with
   | none => true
   | some st => e.status == st) &&
  (match q.category with
   | none => true
   | some c => e.category == c) &&
  (match q.year with
   | none => true
   | some y => e.start_date.year == y)

theorem year_range_iff {y : ℕ} {d : PDate} (hv : d.valid = true) :
    (PDate.key ⟨y, 1, 1⟩ ≤ d.key ∧ d.key < PDate.key ⟨y + 1, 1, 1⟩) ↔
      d.year = y := by
  unfold PDate.valid at hv
  simp only [Bool.and_eq_true, decide_eq_true_eq] at hv
  unfold PDate.key
  dsimp only
  constructor <;> intro h <;> omega

theorem mongoMatch_eq_spec {uid : String} {q : ListQuery} {d : MongoDoc}
    (hv : d.ev.start_date.valid = true) :
    mongoMatch uid q d = specMatches uid q d.ev := by
  unfold mongoMatch specMatches
  cases hy : q.year with
  | none => rfl
  | some y =>
    dsimp only
    congr 1
    refine Bool.eq_iff_iff.mpr ?_
    simp only [Bool.and_eq_true, decide_eq_true_eq, beq_iff_eq]
    exact year_range_iff hv

theorem mongoList_total (ms : MongoState) (uid : String) (q : ListQuery)
    (hv : ∀ d ∈ ms.docs, d.ev.start_date.valid = true) :
    (mongoList ms uid q).2 = ms.docs.countP fun d => specMatches uid q d.ev := by
  unfold mongoList
  dsimp only
  exact List.countP_congr fun d hd => by rw [mongoMatch_eq_spec (hv d hd)]

theorem memList_total (vs : MemState) (uid : String) (q : ListQuery) :
    (memList vs uid q).2 = vs.events.countP (specMatches uid q) := by
  rcases q with ⟨st, c, y, pg, ps, sb, so⟩
  cases st <;> cases c <;> cases y <;>
    (unfold memList liveUserRows
     dsimp only
     rw [length_stableSortBy]
     simp only [List.filter_filter, ← List.countP_eq_length_filter]
     refine List.countP_congr fun e he => ?_
     unfold specMatches
     dsimp only
     constructor <;> intro h <;>
       (simp only [Bool.and_eq_true] at h ⊢; tauto))

theorem memList_len (vs : MemState) (uid : String) (q : ListQuery) :
    (memList vs uid q).1.length ≤ q.page_size := by
  unfold memList
  dsimp only
  exact List.length_take_le _ _

theorem mongoList_len (ms : MongoState) (uid : String) (q : ListQuery) :
    ∀ items, (mongoList ms uid q).1 = some items →
      items.length ≤ q.page_size := by
  intro items h
  unfold mongoList at h
  dsimp only at h
  unfold docsToEvents at h
  split at h
  · rw [← Option.some.inj h, List.length_map]
    exact List.length_take_le _ _
  · exact absurd h (by simp)

/-- C8: for every `list_events` call with `page ≥ 1` and
`pageSize ∈ 1..100`, in both adapters the returned total equals the
number of live, user-scoped records matching the filters — a quantity
that does not mention `page` or `pageSize` — and the returned items
list has length at most `pageSize` (stored start dates are
calendar-valid, as every date a payload can carry is). -/
theorem list_total_and_page_bound (vs : MemState) (ms : MongoState)
    (uid : String) (q : ListQuery)
    (hpage : 1 ≤ q.page) (hps1 : 1 ≤ q.page_size) (hps2 : q.page_size ≤ 100)
    (hv : ∀ d ∈ ms.docs, d.ev.start_date.valid = true) :
    (memList vs uid q).2 = vs.events.countP (specMatches uid q) ∧
    (memList vs uid q).1.length ≤ q.page_size ∧
    (mongoList ms uid q).2 = ms.docs.countP (fun d => specMatches uid q d.ev) ∧
    (∀ items, (mongoList ms uid q).1 = some items →
      items.length ≤ q.page_size) :=
  ⟨memList_total vs uid q, memList_len vs uid q,
    mongoList_total ms uid q hv, mongoList_len ms uid q⟩

/-- C8 witness: the spec's paging example shape — three events, year
filter 2028, page 1 of size 2. -/
theorem list_total_and_page_bound_witness :
    (memList ⟨[prioEvent 0 ⟨2028, 1, 1⟩, prioEvent 1 ⟨2028, 10, 1⟩,
        prioEvent 2 ⟨2029, 1, 1⟩], 3, 3⟩ "rupa"
      { year := some 2028, page := 1, page_size := 2 }).2 =
      ([prioEvent 0 ⟨2028, 1, 1⟩, prioEvent 1 ⟨2028, 10, 1⟩,
        prioEvent 2 ⟨2029, 1, 1⟩].countP
        (specMatches "rupa" { year := some 2028, page := 1, page_size := 2 })) ∧
    (memList ⟨[prioEvent 0 ⟨2028, 1, 1⟩, prioEvent 1 ⟨2028, 10, 1⟩,
        prioEvent 2 ⟨2029, 1, 1⟩], 3, 3⟩ "rupa"
      { year := some 2028, page := 1, page_size := 2 }).1.length ≤ 2 := by
  have h := list_total_and_page_bound
    ⟨[prioEvent 0 ⟨2028, 1, 1⟩, prioEvent 1 ⟨2028, 10, 1⟩,
      prioEvent 2 ⟨2029, 1, 1⟩], 3, 3⟩
    ⟨[⟨prioEvent 0 ⟨2028, 1, 1⟩, 3⟩, ⟨prioEvent 1 ⟨2028, 10, 1⟩, 3⟩,
      ⟨prioEvent 2 ⟨2029, 1, 1⟩, 3⟩], 3, 3⟩ "rupa"
    { year := some 2028, page := 1, page_size := 2 }
    (by norm_num) (by norm_num) (by norm_num) (by decide)
  exact ⟨h.1, h.2.1⟩

/-! ### C1: the simulation relation between the two adapters

A Mongo document and a volatile-store event correspond when they agree
on everything except `updated_at` (the one field the two adapters stamp
at different moments: an empty update refreshes it in the volatile
adapter only), the document's rank is the precomputed rank of its
priority, and the record is date-consistent with a calendar-valid start
date (true of every record produced from parsed payloads). -/

/-- Forget the one field the adapters may disagree on. -/
def eraseUpd (e : StoredEvent) : StoredEvent := { e with updated_at := 0 }

/-- Correspondence between a document and a volatile-store event. -/
def DocRel (d : MongoDoc) (e : StoredEvent) : Prop :=
  eraseUpd d.ev = eraseUpd e ∧
  d.priority_rank = PRIORITY_RANK e.priority ∧
  datesOk e.start_date e.end_date = true ∧
  e.start_date.valid = true

/-- Correspondence between whole states. -/
def Rel (ms : MongoState) (vs : MemState) : Prop :=
  List.Forall₂ DocRel ms.docs vs.events ∧
  (vs.events.map fun e => e.id).Nodup ∧
  (∀ e ∈ vs.events, e.id < vs.nextId) ∧
  ms.nextId = vs.nextId ∧ ms.clock = vs.clock

theorem view_eraseUpd (e : StoredEvent) :
    StoredEvent.view (eraseUpd e) = e.view := rfl

theorem DocRel.fields {d : MongoDoc} {e : StoredEvent} (h : DocRel d e) :
    d.ev.id = e.id ∧ d.ev.user_id = e.user_id ∧
    d.ev.deleted_at = e.deleted_at ∧ d.ev.status = e.status ∧
    d.ev.category = e.category ∧ d.ev.start_date = e.start_date ∧
    d.ev.end_date = e.end_date ∧ d.ev.created_at = e.created_at ∧
    d.ev.priority = e.priority ∧ d.ev.timeline_phase = e.timeline_phase ∧
    d.ev.is_financial = e.is_financial ∧
    d.ev.savings_target = e.savings_target ∧
    d.ev.amount_saved = e.amount_saved := by
  obtain ⟨h1, -, -⟩ := h
  unfold eraseUpd at h1
  rcases d with ⟨dev, rank⟩
  rcases dev with ⟨a1, a2, a3, a4, a5, a6, a7, a8, a9, b1, b2, b3, b4, b5,
    b6, b7, b8, b9, c1, c2⟩
  rcases e with ⟨x1, x2, x3, x4, x5, x6, x7, x8, x9, y1, y2, y3, y4, y5,
    y6, y7, y8, y9, z1, z2⟩
  simp only [StoredEvent.mk.injEq] at h1
  simp_all

theorem DocRel.view_eq {d : MongoDoc} {e : StoredEvent} (h : DocRel d e) :
    d.ev.view = e.view := by
  rw [← view_eraseUpd d.ev, h.1, view_eraseUpd]

theorem forall₂_core_eq {docs : List MongoDoc} {events : List StoredEvent}
    (h : List.Forall₂ DocRel docs events) :
    docs.map (fun d => eraseUpd d.ev) = events.map eraseUpd := by
  induction h with
  | nil => rfl
  | cons hde htail ih => simp [ih, hde.1]

theorem forall₂_concat {R : α → β → Prop} {l₁ : List α} {l₂ : List β}
    {a : α} {b : β} (h : List.Forall₂ R l₁ l₂) (hab : R a b) :
    List.Forall₂ R (l₁ ++ [a]) (l₂ ++ [b]) :=
  List.rel_append h (List.Forall₂.cons hab List.Forall₂.nil)

theorem forall₂_decomp_left {α β : Type} {R : α → β → Prop} :
    ∀ {l₁ : List α} {a : α} {l₂ : List α} {l : List β},
    List.Forall₂ R (l₁ ++ a :: l₂) l →
    ∃ m₁ b m₂, l = m₁ ++ b :: m₂ ∧ List.Forall₂ R l₁ m₁ ∧ R a b ∧
      List.Forall₂ R l₂ m₂ := by
  intro l₁
  induction l₁ with
  | nil =>
    intro a l₂ l h
    cases h with
    | cons hab htail =>
      rename_i b m
      exact ⟨[], b, m, rfl, List.Forall₂.nil, hab, htail⟩
  | cons x xs ih =>
    intro a l₂ l h
    cases h with
    | cons hxb htail =>
      rename_i b m
      obtain ⟨m₁, b₂, m₂, hm, h₁, h₂, h₃⟩ := ih htail
      exact ⟨b :: m₁, b₂, m₂, by rw [hm]; rfl, List.Forall₂.cons hxb h₁, h₂, h₃⟩

theorem forall₂_ids_eq {docs : List MongoDoc} {events : List StoredEvent}
    (h : List.Forall₂ DocRel docs events) :
    docs.map (fun d => d.ev.id) = events.map fun e => e.id := by
  induction h with
  | nil => rfl
  | cons hde htail ih => simp [ih, hde.fields.1]

theorem find_corr {uid : String} {id : ℕ} :
    ∀ {docs : List MongoDoc} {events : List StoredEvent},
    List.Forall₂ DocRel docs events → (events.map fun e => e.id).Nodup →
    Option.Rel DocRel
      (docs.find? fun d =>
        d.ev.id == id && d.ev.deleted_at == none && d.ev.user_id == uid)
      (match events.find? (fun e => e.id == id) with
       | none => none
       | some e =>
         if (e.deleted_at == none && e.user_id == uid) = true then some e
         else none) := by
  intro docs events hrel hnodup
  induction hrel with
  | nil => exact Option.Rel.none
  | cons hde htail ih =>
    rename_i d e docs' events'
    rw [List.map_cons, List.nodup_cons] at hnodup
    obtain ⟨hnx, hnt⟩ := hnodup
    obtain ⟨hid, huser, hdel, -⟩ := hde.fields
    by_cases hx : (e.id == id) = true
    · by_cases hc : (e.deleted_at == none && e.user_id == uid) = true
      · have hpred : (d.ev.id == id && d.ev.deleted_at == none &&
            d.ev.user_id == uid) = true := by
          rw [hid, hdel, huser]
          simp only [Bool.and_eq_true] at hc ⊢
          exact ⟨⟨hx, hc.1⟩, hc.2⟩
        simp only [List.find?_cons, hpred, hx]
        simp only [hc, if_true]
        exact Option.Rel.some hde
      · have hpred : (d.ev.id == id && d.ev.deleted_at == none &&
            d.ev.user_id == uid) = false := by
          rw [hid, hdel, huser]
          cases hb : (e.id == id && e.deleted_at == none &&
              e.user_id == uid)
          · rfl
          · exfalso
            simp only [Bool.and_eq_true] at hb
            exact absurd (by simp [hb.1.2, hb.2] : (e.deleted_at == none &&
              e.user_id == uid) = true) (by simp [hc])
        simp only [List.find?_cons, hpred, hx]
        simp only [hc, if_false]
        have hnone : docs'.find? (fun d => d.ev.id == id &&
            d.ev.deleted_at == none && d.ev.user_id == uid) = none := by
          refine List.find?_eq_none.mpr fun y hy => ?_
          have hyid : y.ev.id ∈ events'.map fun e => e.id := by
            rw [← forall₂_ids_eq htail]
            exact List.mem_map.mpr ⟨y, hy, rfl⟩
          have : y.ev.id ≠ id := by
            intro hcontra
            have hxid : e.id = id := by simpa using hx
            rw [hcontra, ← hxid] at hyid
            exact hnx hyid
          simp [this]
        rw [hnone]
        exact Option.Rel.none
    · have hx0 : (e.id == id) = false := by simpa using hx
      have hpred : (d.ev.id == id && d.ev.deleted_at == none &&
          d.ev.user_id == uid) = false := by
        rw [hid]
        simp [hx0]
      simp only [List.find?_cons, hpred, hx0]
      exact ih hnt

theorem mongoFindOne_corr {ms : MongoState} {vs : MemState} {uid : String}
    {id : ℕ} (h : Rel ms vs) :
    Option.Rel DocRel (mongoFindOne ms uid id) (memGetEvent vs uid id) := by
  unfold mongoFindOne memGetEvent
  exact find_corr h.1 h.2.1

theorem corr_get_none {ms : MongoState} {vs : MemState} {uid : String}
    {id : ℕ} (h : Rel ms vs) (hg : memGetEvent vs uid id = none) :
    mongoFindOne ms uid id = none := by
  have hc := @mongoFindOne_corr _ _ uid id h
  rw [hg] at hc
  cases hf : mongoFindOne ms uid id
  · rfl
  · rw [hf] at hc
    cases hc

theorem corr_get_some {ms : MongoState} {vs : MemState} {uid : String}
    {id : ℕ} {e : StoredEvent} (h : Rel ms vs)
    (hg : memGetEvent vs uid id = some e) :
    ∃ d, mongoFindOne ms uid id = some d ∧ DocRel d e := by
  have hc := @mongoFindOne_corr _ _ uid id h
  rw [hg] at hc
  cases hf : mongoFindOne ms uid id with
  | none =>
    rw [hf] at hc
    cases hc
  | some d =>
    rw [hf] at hc
    cases hc with
    | some hde => exact ⟨d, rfl, hde⟩

theorem forall₂_map_eq {α β γ : Type} {R : α → β → Prop} {f : α → γ}
    {g : β → γ} (hfg : ∀ a b, R a b → f a = g b) :
    ∀ {l₁ : List α} {l₂ : List β}, List.Forall₂ R l₁ l₂ →
      l₁.map f = l₂.map g := by
  intro l₁ l₂ h
  induction h with
  | nil => rfl
  | cons hab htail ih => simp [ih, hfg _ _ hab]

theorem forall₂_countP {α β : Type} {R : α → β → Prop} {p : α → Bool}
    {q : β → Bool} (hpq : ∀ a b, R a b → p a = q b) :
    ∀ {l₁ : List α} {l₂ : List β}, List.Forall₂ R l₁ l₂ →
      l₁.countP p = l₂.countP q := by
  intro l₁ l₂ h
  induction h with
  | nil => rfl
  | cons hab htail ih =>
    rw [List.countP_cons, List.countP_cons, ih, hpq _ _ hab]

theorem forall₂_filter {α β : Type} {R : α → β → Prop} {p : α → Bool}
    {q : β → Bool} (hpq : ∀ a b, R a b → p a = q b) :
    ∀ {l₁ : List α} {l₂ : List β}, List.Forall₂ R l₁ l₂ →
      List.Forall₂ R (l₁.filter p) (l₂.filter q) := by
  intro l₁ l₂ h
  induction h with
  | nil => exact List.Forall₂.nil
  | cons hab htail ih =>
    rename_i a b l₁ l₂
    rw [List.filter_cons, List.filter_cons, ← hpq _ _ hab]
    cases hp : p a
    · exact ih
    · exact List.Forall₂.cons hab ih

theorem forall₂_all_datesOk {docs : List MongoDoc} {events : List StoredEvent}
    (h : List.Forall₂ DocRel docs events) :
    docs.all (fun d => datesOk d.ev.start_date d.ev.end_date) = true := by
  induction h with
  | nil => rfl
  | cons hab htail ih =>
    rename_i d e l₁ l₂
    have hd : datesOk d.ev.start_date d.ev.end_date = true := by
      rw [hab.fields.2.2.2.2.2.1, hab.fields.2.2.2.2.2.2.1]
      exact hab.2.2.1
    simp [List.all_cons, hd, ih]

theorem forall₂_insertOrd {α β : Type} {R : α → β → Prop}
    {le₁ : α → α → Bool} {le₂ : β → β → Bool}
    (hc : ∀ a b a2 b2, R a b → R a2 b2 → le₁ a a2 = le₂ b b2)
    {a : α} {b : β} (hab : R a b) :
    ∀ {l₁ : List α} {l₂ : List β}, List.Forall₂ R l₁ l₂ →
      List.Forall₂ R (insertOrd le₁ a l₁) (insertOrd le₂ b l₂) := by
  intro l₁ l₂ h
  induction h with
  | nil => exact List.Forall₂.cons hab List.Forall₂.nil
  | cons hxy htail ih =>
    rename_i x y l₁ l₂
    unfold insertOrd
    rw [show le₁ x a = le₂ y b from hc x y a b hxy hab]
    cases hle : le₂ y b
    · simp only [Bool.false_eq_true, if_false]
      exact List.Forall₂.cons hab (List.Forall₂.cons hxy htail)
    · simp only [if_true]
      exact List.Forall₂.cons hxy ih

theorem forall₂_stableSortBy {α β : Type} {R : α → β → Prop}
    {le₁ : α → α → Bool} {le₂ : β → β → Bool}
    (hc : ∀ a b a2 b2, R a b → R a2 b2 → le₁ a a2 = le₂ b b2) :
    ∀ {l₁ : List α} {l₂ : List β}, List.Forall₂ R l₁ l₂ →
      List.Forall₂ R (stableSortBy le₁ l₁) (stableSortBy le₂ l₂) := by
  have hstep : ∀ {l₁ : List α} {l₂ : List β}, List.Forall₂ R l₁ l₂ →
      ∀ {acc₁ : List α} {acc₂ : List β}, List.Forall₂ R acc₁ acc₂ →
      List.Forall₂ R (l₁.foldl (fun acc x => insertOrd le₁ x acc) acc₁)
        (l₂.foldl (fun acc x => insertOrd le₂ x acc) acc₂) := by
    intro l₁ l₂ h
    induction h with
    | nil => intro acc₁ acc₂ hacc; exact hacc
    | cons hxy htail ih =>
      intro acc₁ acc₂ hacc
      exact ih (forall₂_insertOrd hc hxy hacc)
  intro l₁ l₂ h
  exact hstep h List.Forall₂.nil

theorem forall₂_views_eq {docs : List MongoDoc} {events : List StoredEvent}
    (h : List.Forall₂ DocRel docs events) :
    docs.map (fun d => d.ev.view) = events.map StoredEvent.view :=
  forall₂_map_eq (fun d e hde => hde.view_eq) h

/-- `list_events` of the volatile adapter in normalized form: one filter
by the consolidated matching predicate, then sort, count and slice. -/
theorem memList_eq_spec (vs : MemState) (uid : String) (q : ListQuery) :
    memList vs uid q =
      (((stableSortBy (memCmp q.sort_by q.sort_order)
          (vs.events.filter (specMatches uid q))).drop
            ((q.page - 1) * q.page_size)).take q.page_size,
        (vs.events.filter (specMatches uid q)).length) := by
  have hchain :
      (match q.year with
        | none =>
          (match q.category with
            | none =>
              (match q.status with
                | none => liveUserRows vs.events uid
                | some st => (liveUserRows vs.events uid).filter
                    fun e => e.status == st)
            | some c =>
              (match q.status with
                | none => liveUserRows vs.events uid
                | some st => (liveUserRows vs.events uid).filter
                    fun e => e.status == st).filter
                fun e => e.category == c)
        | some y =>
          (match q.category with
            | none =>
              (match q.status with
                | none => liveUserRows vs.events uid
                | some st => (liveUserRows vs.events uid).filter
                    fun e => e.status == st)
            | some c =>
              (match q.status with
                | none => liveUserRows vs.events uid
                | some st => (liveUserRows vs.events uid).filter
                    fun e => e.status == st).filter
                fun e => e.category == c).filter
            fun e => e.start_date.year == y) =
      vs.events.filter (specMatches uid q) := by
    unfold liveUserRows
    cases hst : q.status <;> cases hc : q.category <;> cases hy : q.year <;>
      (simp only [List.filter_filter]
       refine List.filter_congr fun e he => ?_
       unfold specMatches
       rw [hst, hc, hy]
       rcases hdel : e.deleted_at <;> rcases hub : (e.user_id == uid) <;>
         simp [hdel, hub, Bool.and_comm, Bool.and_assoc, Bool.and_left_comm])
  unfold memList
  dsimp only
  rw [hchain, length_stableSortBy]

theorem DocRel.id_eq {d : MongoDoc} {e : StoredEvent} (h : DocRel d e) :
    d.ev.id = e.id := h.fields.1

theorem DocRel.user_eq {d : MongoDoc} {e : StoredEvent} (h : DocRel d e) :
    d.ev.user_id = e.user_id := h.fields.2.1

theorem DocRel.deleted_eq {d : MongoDoc} {e : StoredEvent} (h : DocRel d e) :
    d.ev.deleted_at = e.deleted_at := h.fields.2.2.1

theorem DocRel.status_eq {d : MongoDoc} {e : StoredEvent} (h : DocRel d e) :
    d.ev.status = e.status := h.fields.2.2.2.1

theorem DocRel.category_eq {d : MongoDoc} {e : StoredEvent} (h : DocRel d e) :
    d.ev.category = e.category := h.fields.2.2.2.2.1

theorem DocRel.start_eq {d : MongoDoc} {e : StoredEvent} (h : DocRel d e) :
    d.ev.start_date = e.start_date := h.fields.2.2.2.2.2.1

theorem DocRel.end_eq {d : MongoDoc} {e : StoredEvent} (h : DocRel d e) :
    d.ev.end_date = e.end_date := h.fields.2.2.2.2.2.2.1

theorem DocRel.created_eq {d : MongoDoc} {e : StoredEvent} (h : DocRel d e) :
    d.ev.created_at = e.created_at := h.fields.2.2.2.2.2.2.2.1

theorem DocRel.priority_eq {d : MongoDoc} {e : StoredEvent} (h : DocRel d e) :
    d.ev.priority = e.priority := h.fields.2.2.2.2.2.2.2.2.1

theorem DocRel.phase_eq {d : MongoDoc} {e : StoredEvent} (h : DocRel d e) :
    d.ev.timeline_phase = e.timeline_phase := h.fields.2.2.2.2.2.2.2.2.2.1

theorem DocRel.fin_eq {d : MongoDoc} {e : StoredEvent} (h : DocRel d e) :
    d.ev.is_financial = e.is_financial := h.fields.2.2.2.2.2.2.2.2.2.2.1

theorem DocRel.target_eq {d : MongoDoc} {e : StoredEvent} (h : DocRel d e) :
    d.ev.savings_target = e.savings_target := h.fields.2.2.2.2.2.2.2.2.2.2.2.1

theorem DocRel.saved_eq {d : MongoDoc} {e : StoredEvent} (h : DocRel d e) :
    d.ev.amount_saved = e.amount_saved := h.fields.2.2.2.2.2.2.2.2.2.2.2.2

theorem docrel_specMatches {uid : String} {q : ListQuery} {d : MongoDoc}
    {e : StoredEvent} (h : DocRel d e) :
    mongoMatch uid q d = specMatches uid q e := by
  have hv : d.ev.start_date.valid = true := by
    rw [h.start_eq]
    exact h.2.2.2
  rw [mongoMatch_eq_spec hv]
  unfold specMatches
  rw [h.deleted_eq, h.user_eq, h.status_eq, h.category_eq, h.start_eq]

theorem docrel_cmp {sb : SortBy} {so : SortOrder}
    (hsb : sb ≠ SortBy.priority) {a : MongoDoc} {b : StoredEvent}
    {a2 : MongoDoc} {b2 : StoredEvent} (hab : DocRel a b)
    (hab2 : DocRel a2 b2) :
    mongoCmp sb so a a2 = memCmp sb so b b2 := by
  cases sb with
  | priority => exact absurd rfl hsb
  | start_date =>
    cases so <;>
      (unfold mongoCmp memCmp
       rw [hab.start_eq, hab2.start_eq])
  | created_at =>
    cases so <;>
      (unfold mongoCmp memCmp
       rw [hab.created_eq, hab2.created_eq])

theorem list_corr {ms : MongoState} {vs : MemState} (h : Rel ms vs)
    (uid : String) (q : ListQuery) (hq : q.sort_by ≠ SortBy.priority) :
    ∃ l, (mongoList ms uid q).1 = some l ∧
      l.map StoredEvent.view = (memList vs uid q).1.map StoredEvent.view ∧
      (mongoList ms uid q).2 = (memList vs uid q).2 := by
  have hfil : List.Forall₂ DocRel (ms.docs.filter (mongoMatch uid q))
      (vs.events.filter (specMatches uid q)) :=
    forall₂_filter (fun d e hde => docrel_specMatches hde) h.1
  have hsort : List.Forall₂ DocRel
      (stableSortBy (mongoCmp q.sort_by q.sort_order)
        (ms.docs.filter (mongoMatch uid q)))
      (stableSortBy (memCmp q.sort_by q.sort_order)
        (vs.events.filter (specMatches uid q))) := by
    refine forall₂_stableSortBy ?_ hfil
    intro a b a2 b2 hab hab2
    exact docrel_cmp hq hab hab2
  have hslice := List.forall₂_take q.page_size
    (List.forall₂_drop ((q.page - 1) * q.page_size) hsort)
  unfold mongoList
  dsimp only
  unfold docsToEvents
  rw [if_pos (forall₂_all_datesOk hslice)]
  refine ⟨_, rfl, ?_, ?_⟩
  · rw [memList_eq_spec]
    dsimp only
    rw [List.map_map]
    exact forall₂_views_eq hslice
  · rw [memList_eq_spec]
    dsimp only
    rw [List.countP_eq_length_filter]
    exact hfil.length_eq

theorem overview_corr {ms : MongoState} {vs : MemState} (h : Rel ms vs)
    (uid : String)
    (hsafe : ((liveUserRows vs.events uid).map
      (fun e => e.timeline_phase)).dedup.length ≤ 50) :
    mongoOverview ms uid = memOverview vs uid := by
  have hrows : List.Forall₂ DocRel
      (ms.docs.filter fun d =>
        d.ev.deleted_at == none && d.ev.user_id == uid)
      (liveUserRows vs.events uid) := by
    refine forall₂_filter ?_ h.1
    intro d e hde
    rw [hde.deleted_eq, hde.user_eq]
  have hphases : (ms.docs.filter fun d =>
        d.ev.deleted_at == none && d.ev.user_id == uid).map
      (fun d => d.ev.timeline_phase) =
      (liveUserRows vs.events uid).map (fun e => e.timeline_phase) :=
    forall₂_map_eq (fun d e hde => hde.phase_eq) hrows
  have hcnt : (fun p => (ms.docs.filter fun d =>
        d.ev.deleted_at == none && d.ev.user_id == uid).countP
      (fun d => d.ev.timeline_phase == some p)) =
      (fun p => (liveUserRows vs.events uid).countP
        (fun e => e.timeline_phase == some p)) := by
    funext p
    refine forall₂_countP ?_ hrows
    intro d e hde
    rw [hde.phase_eq]
  have htake : ((sortedPhaseKeys ((liveUserRows vs.events uid).map
      (fun e => e.timeline_phase))).take 50) =
      sortedPhaseKeys ((liveUserRows vs.events uid).map
        (fun e => e.timeline_phase)) := by
    refine List.take_of_length_le ?_
    unfold sortedPhaseKeys
    rw [length_stableSortBy]
    exact hsafe
  unfold mongoOverview memOverview
  simp only [OverviewSummary.mk.injEq]
  refine ⟨hrows.length_eq, ?_, ?_⟩
  · refine congrArg₂ _ ?_ (congrArg₂ _ ?_ ?_) <;>
      (refine forall₂_countP ?_ hrows
       intro d e hde
       rw [hde.status_eq])
  · rw [hphases, htake, hcnt]

theorem financial_corr {ms : MongoState} {vs : MemState} (h : Rel ms vs)
    (today : PDate) (uid : String) (ny : ℕ)
    (hsafe : ((liveUserRows vs.events uid).filter
      (fun e => e.is_financial)).length ≤ 2000) :
    mongoFinancial today ms uid ny = memFinancial today vs uid ny := by
  have hrows : List.Forall₂ DocRel
      (ms.docs.filter fun d =>
        d.ev.deleted_at == none && d.ev.user_id == uid && d.ev.is_financial)
      ((liveUserRows vs.events uid).filter fun e => e.is_financial) := by
    unfold liveUserRows
    rw [List.filter_filter]
    refine forall₂_filter ?_ h.1
    intro d e hde
    rw [hde.deleted_eq, hde.user_eq, hde.fin_eq]
    cases hdel : e.deleted_at <;> cases hu : (e.user_id == uid) <;>
      cases hf : e.is_financial <;> simp [hdel, hu, hf]
  have htake : (ms.docs.filter fun d =>
        d.ev.deleted_at == none && d.ev.user_id == uid &&
          d.ev.is_financial).take 2000 =
      ms.docs.filter fun d =>
        d.ev.deleted_at == none && d.ev.user_id == uid &&
          d.ev.is_financial := by
    refine List.take_of_length_le ?_
    rw [hrows.length_eq]
    exact hsafe
  unfold mongoFinancial memFinancial
  dsimp only
  rw [htake]
  simp only [FinancialSummary.mk.injEq]
  refine ⟨?_, ?_, ?_, ?_, trivial⟩
  · refine congrArg _ (congrArg _ ?_)
    exact forall₂_map_eq (fun d e hde => by rw [hde.target_eq]) hrows
  · refine congrArg _ (congrArg _ ?_)
    exact forall₂_map_eq (fun d e hde => by rw [hde.saved_eq]) hrows
  · refine forall₂_countP ?_ hrows
    intro d e hde
    rw [hde.target_eq, hde.saved_eq]
  · refine forall₂_countP ?_ hrows
    intro d e hde
    rw [hde.start_eq]

theorem Rel.tick {ms : MongoState} {vs : MemState} (h : Rel ms vs) :
    Rel ms.tick vs.tick := by
  obtain ⟨h1, h2, h3, h4, h5⟩ := h
  exact ⟨h1, h2, h3, h4, by simp [MongoState.tick, MemState.tick, h5]⟩

theorem applyUpdate_eraseUpd (x : StoredEvent) (u : EventUpdate) :
    eraseUpd (applyUpdate x u) = applyUpdate (eraseUpd x) u := rfl

theorem applyUpdate_empty {u : EventUpdate} (h : u.isEmpty = true)
    (x : StoredEvent) : applyUpdate x u = x := by
  unfold EventUpdate.isEmpty at h
  simp only [Bool.and_eq_true, beq_iff_eq] at h
  obtain ⟨⟨⟨⟨⟨⟨⟨⟨⟨⟨⟨⟨⟨⟨h1, h2⟩, h3⟩, h4⟩, h5⟩, h6⟩, h7⟩, h8⟩, h9⟩, h10⟩,
    h11⟩, h12⟩, h13⟩, h14⟩, h15⟩ := h
  unfold applyUpdate
  rw [h1, h2, h3, h4, h5, h6, h7, h8, h9, h10, h11, h12, h13, h14, h15]
  simp only [Option.getD_none]

theorem forall₂_decomp_right {α β : Type} {R : α → β → Prop} :
    ∀ {l : List α} {m₁ : List β} {b : β} {m₂ : List β},
    List.Forall₂ R l (m₁ ++ b :: m₂) →
    ∃ l₁ a l₂, l = l₁ ++ a :: l₂ ∧ List.Forall₂ R l₁ m₁ ∧ R a b ∧
      List.Forall₂ R l₂ m₂ := by
  intro l m₁
  induction m₁ generalizing l with
  | nil =>
    intro b m₂ h
    cases h with
    | cons hab htail =>
      rename_i a l'
      exact ⟨[], a, l', rfl, List.Forall₂.nil, hab, htail⟩
  | cons y ys ih =>
    intro b m₂ h
    cases h with
    | cons hay htail =>
      rename_i a l'
      obtain ⟨l₁, a₂, l₂, hl, h₁, h₂, h₃⟩ := ih htail
      exact ⟨a :: l₁, a₂, l₂, by rw [hl]; rfl,
        List.Forall₂.cons hay h₁, h₂, h₃⟩

theorem memPut_no_match {l : List StoredEvent} {id : ℕ} {v : StoredEvent}
    (h : ∀ x ∈ l, x.id ≠ id) :
    l.map (fun x => if x.id == id then v else x) = l := by
  have : ∀ x ∈ l, (fun x => if x.id == id then v else x) x = x := by
    intro x hx
    simp [h x hx]
  rw [List.map_congr_left this]
  exact List.map_id' l

theorem memPut_decomp {m₁ : List StoredEvent} {e : StoredEvent}
    {m₂ : List StoredEvent} {id : ℕ} (v : StoredEvent)
    (he : e.id = id) (h₁ : ∀ x ∈ m₁, x.id ≠ id) (h₂ : ∀ x ∈ m₂, x.id ≠ id) :
    memPut (m₁ ++ e :: m₂) id v = m₁ ++ v :: m₂ := by
  unfold memPut
  rw [List.map_append, List.map_cons, memPut_no_match h₁, memPut_no_match h₂,
    if_pos (by simp [he])]

theorem find?_decomp {α : Type} {p : α → Bool} {l : List α} {x : α}
    (h : l.find? p = some x) :
    ∃ l₁ l₂, l = l₁ ++ x :: l₂ ∧ ∀ y ∈ l₁, p y = false := by
  obtain ⟨l₁, l₂, hl, hfalse, -⟩ := updateFirst_decomp (fun a => a) h
  exact ⟨l₁, l₂, hl, hfalse⟩

/-- The ids around a split of a duplicate-free list differ from the id
at the split point. -/
theorem nodup_split_ids {m₁ : List StoredEvent} {e : StoredEvent}
    {m₂ : List StoredEvent}
    (h : (((m₁ ++ e :: m₂).map fun x => x.id)).Nodup) :
    (∀ x ∈ m₁, x.id ≠ e.id) ∧ ∀ x ∈ m₂, x.id ≠ e.id := by
  rw [List.map_append, List.map_cons] at h
  constructor
  · intro x hx hxe
    have hmem : e.id ∈ m₁.map fun x => x.id := by
      rw [← hxe]
      exact List.mem_map.mpr ⟨x, hx, rfl⟩
    have hdisj := (List.nodup_append.mp h).2.2
    exact hdisj hmem (List.mem_cons_self _ _)
  · intro x hx hxe
    have h2 := (List.nodup_append.mp h).2.1
    have := (List.nodup_cons.mp h2).1
    exact this (by rw [← hxe]; exact List.mem_map.mpr ⟨x, hx, rfl⟩)

theorem eraseUpd_stamp (x : StoredEvent) (c : ℕ) :
    eraseUpd { x with updated_at := c } = eraseUpd x := rfl

theorem create_corr {ms : MongoState} {vs : MemState} (h : Rel ms vs)
    (p : EventCreate) (hd : datesOk p.start_date p.end_date = true)
    (hv : p.start_date.valid = true) :
    (mongoCreate ms p).1 = some (memCreate vs p).1 ∧
    Rel (mongoCreate ms p).2.tick (memCreate vs p).2.tick := by
  obtain ⟨hrel, hnodup, hfresh, hnid, hclock⟩ := h
  have hlt : ∀ d ∈ ms.docs, d.ev.id ≠ ms.nextId := by
    intro d hd'
    have hm : d.ev.id ∈ vs.events.map fun e => e.id := by
      rw [← forall₂_ids_eq hrel]
      exact List.mem_map.mpr ⟨d, hd', rfl⟩
    obtain ⟨e, he, heq⟩ := List.mem_map.mp hm
    rw [← heq, hnid]
    exact Nat.ne_of_lt (hfresh e he)
  have hfind : ((ms.docs ++
      [({ ev := p.stored ms.nextId ms.clock
          priority_rank := PRIORITY_RANK p.priority } : MongoDoc)]).find?
      fun d => d.ev.id == ms.nextId && d.ev.deleted_at == none) =
      some { ev := p.stored ms.nextId ms.clock
             priority_rank := PRIORITY_RANK p.priority } := by
    rw [find?_append_of_false fun d hd' => by simp [hlt d hd']]
    simp [EventCreate.stored]
  have hde : DocRel
      { ev := p.stored ms.nextId ms.clock
        priority_rank := PRIORITY_RANK p.priority }
      (p.stored vs.nextId vs.clock) := by
    refine ⟨?_, rfl, hd, hv⟩
    rw [hnid, hclock]
  constructor
  · show (((ms.docs ++ [_]).find? _).bind docToEvent) = _
    rw [hfind]
    show docToEvent _ = _
    unfold docToEvent
    have hd2 : datesOk
        ({ ev := p.stored ms.nextId ms.clock
           priority_rank := PRIORITY_RANK p.priority } : MongoDoc).ev.start_date
        ({ ev := p.stored ms.nextId ms.clock
           priority_rank := PRIORITY_RANK p.priority } : MongoDoc).ev.end_date
        = true := hd
    rw [if_pos hd2]
    show some (p.stored ms.nextId ms.clock) = some (memCreate vs p).1
    rw [hnid, hclock]
    rfl
  · refine ⟨forall₂_concat hrel hde, ?_, ?_, ?_, ?_⟩
    · show ((vs.events ++ [p.stored vs.nextId vs.clock]).map
        fun e => e.id).Nodup
      rw [List.map_append, List.map_cons, List.map_nil]
      refine List.Nodup.append hnodup (List.nodup_singleton _) ?_
      intro x hx hx'
      obtain ⟨e, he, heq⟩ := List.mem_map.mp hx
      have : x = vs.nextId := by
        simpa [EventCreate.stored] using hx'
      rw [this] at heq
      exact absurd heq (Nat.ne_of_lt (hfresh e he))
    · intro e he
      rcases List.mem_append.mp he with he | he
      · exact Nat.lt_succ_of_lt (hfresh e he)
      · have : e = p.stored vs.nextId vs.clock := by simpa using he
        rw [this]
        exact Nat.lt_succ_self _
    · show ms.nextId + 1 = vs.nextId + 1
      rw [hnid]
    · show ms.clock + 1 = vs.clock + 1
      rw [hclock]

theorem mongoGet_corr {ms : MongoState} {vs : MemState} (h : Rel ms vs)
    (uid : String) (id : ℕ) :
    ∃ r : Option StoredEvent, mongoGet ms uid id = .ok r ∧
      r.map StoredEvent.view = (memGetEvent vs uid id).map StoredEvent.view := by
  cases hg : memGetEvent vs uid id with
  | none =>
    refine ⟨none, ?_, rfl⟩
    unfold mongoGet
    rw [corr_get_none h hg]
  | some e =>
    obtain ⟨d, hf, hde⟩ := corr_get_some h hg
    have hdoc : docToEvent d = some d.ev := by
      unfold docToEvent
      refine if_pos ?_
      rw [hde.start_eq, hde.end_eq]
      exact hde.2.2.1
    refine ⟨some d.ev, ?_, ?_⟩
    · unfold mongoGet
      simp only [hf, hdoc]
    · simp [hde.view_eq]

theorem delete_corr {ms : MongoState} {vs : MemState} (h : Rel ms vs)
    (uid : String) (id : ℕ) :
    (mongoDelete ms uid id).1 = (memDelete vs uid id).1 ∧
    Rel (mongoDelete ms uid id).2.tick (memDelete vs uid id).2.tick := by
  cases hg : memGetEvent vs uid id with
  | none =>
    have hf := corr_get_none h hg
    unfold mongoDelete memDelete
    simp only [hf, hg]
    exact ⟨trivial, h.tick⟩
  | some e =>
    obtain ⟨d, hf, hde⟩ := corr_get_some h hg
    obtain ⟨hemem, -, -, heid⟩ := memGetEvent_spec hg
    have hf' : ms.docs.find? (fun x => x.ev.id == id &&
        x.ev.deleted_at == none && x.ev.user_id == uid) = some d := hf
    obtain ⟨l₁, l₂, hsplit, hfalse, hupd⟩ := updateFirst_decomp
      (fun x => { x with ev :=
        { x.ev with deleted_at := some ms.clock, updated_at := ms.clock } }) hf'
    obtain ⟨hrel, hnodup, hfresh, hnid, hclock⟩ := h
    have hrel' := hrel
    rw [hsplit] at hrel'
    obtain ⟨m₁, b, m₂, hevents, hF1, hdb, hF2⟩ := forall₂_decomp_left hrel'
    have hbe : b = e := by
      have hbmem : b ∈ vs.events := by
        rw [hevents]
        exact List.mem_append_right _ (List.mem_cons_self _ _)
      refine id_inj hnodup hbmem hemem ?_
      rw [← hdb.id_eq]
      exact hde.id_eq
    subst hbe
    have hnodup' := hnodup
    rw [hevents] at hnodup'
    obtain ⟨hm₁, hm₂⟩ := nodup_split_ids hnodup'
    have hput : memPut vs.events id
        { b with deleted_at := some vs.clock, updated_at := vs.clock } =
        m₁ ++ { b with deleted_at := some vs.clock, updated_at := vs.clock }
          :: m₂ := by
      rw [hevents]
      exact memPut_decomp _ heid
        (fun x hx hc => hm₁ x hx (hc.trans heid.symm))
        (fun x hx hc => hm₂ x hx (hc.trans heid.symm))
    unfold mongoDelete memDelete
    simp only [hf, hg]
    refine ⟨trivial, ?_, ?_, ?_, ?_, ?_⟩
    · show List.Forall₂ DocRel (updateFirst _ _ ms.docs)
        (memPut vs.events id _)
      rw [hupd, hput]
      refine List.rel_append hF1 (List.Forall₂.cons ?_ hF2)
      refine ⟨?_, hdb.2.1, hdb.2.2.1, hdb.2.2.2⟩
      have h1 : eraseUpd { d.ev with deleted_at := some ms.clock, updated_at := ms.clock } = { eraseUpd d.ev with deleted_at := some ms.clock } := rfl
      have h2 : eraseUpd { b with deleted_at := some vs.clock, updated_at := vs.clock } = { eraseUpd b with deleted_at := some vs.clock } := rfl
      show eraseUpd { d.ev with deleted_at := some ms.clock, updated_at := ms.clock } = _
      rw [h1, h2, hdb.1, hclock]
    · show ((memPut vs.events id _).map fun x => x.id).Nodup
      rw [hput]
      have hmap : ((m₁ ++ { b with deleted_at := some vs.clock, updated_at := vs.clock } :: m₂).map fun x => x.id) = (m₁ ++ b :: m₂).map fun x => x.id := by
        simp
      rw [hmap, ← hevents]
      exact hnodup
    · intro x hx
      show x.id < vs.nextId
      rw [show memPut vs.events id { b with deleted_at := some vs.clock, updated_at := vs.clock } = _ from hput] at hx
      rcases List.mem_append.mp hx with hx | hx
      · exact hfresh x (by rw [hevents]; exact List.mem_append_left _ hx)
      · rcases List.mem_cons.mp hx with hx | hx
        · rw [hx]
          exact hfresh b hemem
        · exact hfresh x (by
            rw [hevents]
            exact List.mem_append_right _ (List.mem_cons_of_mem _ hx))
    · exact hnid
    · show ms.clock + 1 = vs.clock + 1
      rw [hclock]

theorem update_corr {ms : MongoState} {vs : MemState} (h : Rel ms vs)
    (uid : String) (id : ℕ) (u : EventUpdate)
    (hsafe : ∀ e, memGetEvent vs uid id = some e →
      datesOk (applyUpdate e u).start_date (applyUpdate e u).end_date = true ∧
      (applyUpdate e u).start_date.valid = true) :
    ∃ r : Option StoredEvent, (mongoUpdate ms uid id u).1 = .ok r ∧
      r.map StoredEvent.view = (memUpdate vs uid id u).1.map StoredEvent.view ∧
      Rel (mongoUpdate ms uid id u).2.tick (memUpdate vs uid id u).2.tick := by
  cases hemp : u.isEmpty with
  | true =>
    have hmu : mongoUpdate ms uid id u = (mongoGet ms uid id, ms) := by
      unfold mongoUpdate
      rw [if_pos hemp]
    obtain ⟨r, hr, hv⟩ := mongoGet_corr h uid id
    cases hg : memGetEvent vs uid id with
    | none =>
      rw [hg, Option.map_none'] at hv
      refine ⟨r, by rw [hmu]; exact hr, ?_, ?_⟩
      · unfold memUpdate
        simp only [hg]
        exact hv
      · unfold memUpdate
        simp only [hg]
        rw [hmu]
        exact h.tick
    | some e =>
      obtain ⟨hemem, -, -, heid⟩ := memGetEvent_spec hg
      obtain ⟨hrel, hnodup, hfresh, hnid, hclock⟩ := h
      obtain ⟨m₁, m₂, hevents, hfalse⟩ := find?_decomp (memGetEvent_find? hg)
      have hrel' := hrel
      rw [hevents] at hrel'
      obtain ⟨l₁, d', l₂, hdocs, hF1, hdb, hF2⟩ := forall₂_decomp_right hrel'
      have hnodup' := hnodup
      rw [hevents] at hnodup'
      obtain ⟨hm₁, hm₂⟩ := nodup_split_ids hnodup'
      have happ : applyUpdate e u = e := applyUpdate_empty hemp e
      have hput : memPut vs.events id
          { applyUpdate e u with updated_at := vs.clock } =
          m₁ ++ { applyUpdate e u with updated_at := vs.clock } :: m₂ := by
        rw [hevents]
        refine memPut_decomp _ heid
          (fun x hx hc => ?_) (fun x hx hc => hm₂ x hx (hc.trans heid.symm))
        · have := hfalse x hx
          simp only [beq_eq_false_iff_ne, ne_eq] at this
          exact this hc
      have hde2 : DocRel d' { applyUpdate e u with updated_at := vs.clock } := by
        refine ⟨?_, ?_, ?_, ?_⟩
        · rw [eraseUpd_stamp, happ]
          exact hdb.1
        · show d'.priority_rank = PRIORITY_RANK (applyUpdate e u).priority
          rw [happ]
          exact hdb.2.1
        · show datesOk (applyUpdate e u).start_date
            (applyUpdate e u).end_date = true
          rw [happ]
          exact hdb.2.2.1
        · show (applyUpdate e u).start_date.valid = true
          rw [happ]
          exact hdb.2.2.2
      refine ⟨r, by rw [hmu]; exact hr, ?_, ?_⟩
      · unfold memUpdate
        simp only [hg]
        rw [hg, Option.map_some'] at hv
        rw [hv]
        show some e.view = some (StoredEvent.view _)
        have : StoredEvent.view { applyUpdate e u with updated_at := vs.clock } =
            StoredEvent.view (applyUpdate e u) := rfl
        rw [this, happ]
      · unfold memUpdate
        simp only [hg]
        rw [hmu]
        refine ⟨?_, ?_, ?_, hnid, ?_⟩
        · show List.Forall₂ DocRel ms.docs (memPut vs.events id _)
          rw [hput, hdocs]
          exact List.rel_append hF1 (List.Forall₂.cons hde2 hF2)
        · show ((memPut vs.events id _).map fun x => x.id).Nodup
          rw [hput]
          have hmap : ((m₁ ++ { applyUpdate e u with updated_at := vs.clock }
              :: m₂).map fun x => x.id) =
              (m₁ ++ e :: m₂).map fun x => x.id := by
            simp [happ]
          rw [hmap, ← hevents]
          exact hnodup
        · intro x hx
          show x.id < vs.nextId
          rw [show memPut vs.events id
            { applyUpdate e u with updated_at := vs.clock } = _ from hput] at hx
          rcases List.mem_append.mp hx with hx | hx
          · exact hfresh x (by rw [hevents]; exact List.mem_append_left _ hx)
          · rcases List.mem_cons.mp hx with hx | hx
            · rw [hx]
              show (applyUpdate e u).id < vs.nextId
              rw [happ]
              exact hfresh e hemem
            · exact hfresh x (by
                rw [hevents]
                exact List.mem_append_right _ (List.mem_cons_of_mem _ hx))
        · show ms.clock + 1 = vs.clock + 1
          rw [hclock]
  | false =>
    have hne : ¬(u.isEmpty = true) := by simp [hemp]
    cases hg : memGetEvent vs uid id with
    | none =>
      have hf := corr_get_none h hg
      unfold mongoUpdate
      rw [if_neg hne]
      unfold memUpdate
      simp only [hf, hg]
      exact ⟨none, rfl, rfl, h.tick⟩
    | some e =>
      obtain ⟨d, hf, hde⟩ := corr_get_some h hg
      obtain ⟨hemem, -, -, heid⟩ := memGetEvent_spec hg
      have hf' : ms.docs.find? (fun x => x.ev.id == id &&
          x.ev.deleted_at == none && x.ev.user_id == uid) = some d := hf
      obtain ⟨l₁, l₂, hsplit, hfalseL, hupd⟩ := updateFirst_decomp
        (fun x => mongoApplySet x u ms.clock) hf'
      obtain ⟨hrel, hnodup, hfresh, hnid, hclock⟩ := h
      have hrel' := hrel
      rw [hsplit] at hrel'
      obtain ⟨m₁, b, m₂, hevents, hF1, hdb, hF2⟩ := forall₂_decomp_left hrel'
      have hbe : b = e := by
        have hbmem : b ∈ vs.events := by
          rw [hevents]
          exact List.mem_append_right _ (List.mem_cons_self _ _)
        refine id_inj hnodup hbmem hemem ?_
        rw [← hdb.id_eq]
        exact hde.id_eq
      subst hbe
      have hnodup' := hnodup
      rw [hevents] at hnodup'
      obtain ⟨hm₁, hm₂⟩ := nodup_split_ids hnodup'
      have hput : memPut vs.events id
          { applyUpdate b u with updated_at := vs.clock } =
          m₁ ++ { applyUpdate b u with updated_at := vs.clock } :: m₂ := by
        rw [hevents]
        refine memPut_decomp _ ?_
          (fun x hx hc => hm₁ x hx (hc.trans heid.symm))
          (fun x hx hc => hm₂ x hx (hc.trans heid.symm))
        show (applyUpdate b u).id = id
        exact heid
      have hde2 : DocRel (mongoApplySet d u ms.clock)
          { applyUpdate b u with updated_at := vs.clock } := by
        refine ⟨?_, ?_, (hsafe b hg).1, (hsafe b hg).2⟩
        · have e1 : eraseUpd (mongoApplySet d u ms.clock).ev =
              applyUpdate (eraseUpd d.ev) u := rfl
          have e2 : eraseUpd { applyUpdate b u with updated_at := vs.clock } =
              applyUpdate (eraseUpd b) u := rfl
          rw [e1, e2, hdb.1]
        · show (match u.priority with
            | some pr => PRIORITY_RANK pr
            | none => d.priority_rank) =
            PRIORITY_RANK (u.priority.getD b.priority)
          cases hp : u.priority with
          | none =>
            simp only [hp, Option.getD_none]
            exact hdb.2.1
          | some pr =>
            simp only [hp, Option.getD_some]
      have hpred := List.find?_some hf'
      have hpredfd : ((mongoApplySet d u ms.clock).ev.id == id &&
          (mongoApplySet d u ms.clock).ev.deleted_at == none &&
          (mongoApplySet d u ms.clock).ev.user_id == uid) = true := hpred
      have hfind2 : ((l₁ ++ mongoApplySet d u ms.clock :: l₂).find?
          fun x => x.ev.id == id && x.ev.deleted_at == none &&
            x.ev.user_id == uid) = some (mongoApplySet d u ms.clock) := by
        rw [find?_append_of_false hfalseL]
        simp only [List.find?_cons, hpredfd]
      have hdoc2 : docToEvent (mongoApplySet d u ms.clock) =
          some (mongoApplySet d u ms.clock).ev := by
        unfold docToEvent
        refine if_pos ?_
        show datesOk (u.start_date.getD d.ev.start_date)
          (u.end_date.getD d.ev.end_date) = true
        rw [hdb.start_eq, hdb.end_eq]
        exact (hsafe b hg).1
      unfold mongoUpdate
      rw [if_neg hne]
      unfold memUpdate
      simp only [hf, hg]
      rw [hupd]
      refine ⟨some (mongoApplySet d u ms.clock).ev, ?_, ?_, ?_⟩
      · show mongoGet _ uid id = _
        unfold mongoGet mongoFindOne
        simp only [hfind2, hdoc2]
      · show some (StoredEvent.view _) = some (StoredEvent.view _)
        rw [hde2.view_eq]
      · refine ⟨?_, ?_, ?_, hnid, ?_⟩
        · show List.Forall₂ DocRel (l₁ ++ mongoApplySet d u ms.clock :: l₂)
            (memPut vs.events id _)
          rw [hput]
          exact List.rel_append hF1 (List.Forall₂.cons hde2 hF2)
        · show ((memPut vs.events id _).map fun x => x.id).Nodup
          rw [hput]
          have hmap : ((m₁ ++ { applyUpdate b u with updated_at := vs.clock }
              :: m₂).map fun x => x.id) =
              (m₁ ++ b :: m₂).map fun x => x.id := by
            simp [applyUpdate]
          rw [hmap, ← hevents]
          exact hnodup
        · intro x hx
          show x.id < vs.nextId
          rw [show memPut vs.events id
            { applyUpdate b u with updated_at := vs.clock } = _ from hput] at hx
          rcases List.mem_append.mp hx with hx | hx
          · exact hfresh x (by rw [hevents]; exact List.mem_append_left _ hx)
          · rcases List.mem_cons.mp hx with hx | hx
            · rw [hx]
              show (applyUpdate b u).id < vs.nextId
              exact hfresh b hemem
            · exact hfresh x (by
                rw [hevents]
                exact List.mem_append_right _ (List.mem_cons_of_mem _ hx))
        · show ms.clock + 1 = vs.clock + 1
          rw [hclock]

/-- The operations on which the two adapters agree: a create whose
payload is date-consistent with a calendar-valid start date (true of
every parsed payload), an update whose merged result still is, a list
that does not sort by priority (the adapters' priority tie-breaks
differ), an overview over at most 50 distinct timeline phases and a
financial summary over at most 2000 financial rows (the Mongo fetch
caps). -/
def safeOp (vs : MemState) : Op → Bool
  | .create _ p => datesOk p.start_date p.end_date && p.start_date.valid
  | .get _ _ => true
  | .update uid id u =>
    match memGetEvent vs uid id with
    | none => true
    | some e =>
      datesOk (applyUpdate e u).start_date (applyUpdate e u).end_date &&
        (applyUpdate e u).start_date.valid
  | .delete _ _ => true
  | .list _ q => !(q.sort_by == SortBy.priority)
  | .overview uid =>
    decide (((liveUserRows vs.events uid).map
      fun e => e.timeline_phase).dedup.length ≤ 50)
  | .financial uid _ =>
    decide (((liveUserRows vs.events uid).filter
      fun e => e.is_financial).length ≤ 2000)

/-- Safety of a whole trace, checked against the evolving volatile
state. -/
def safeOps (today : PDate) (vs : MemState) : List Op → Bool
  | [] => true
  | op :: ops => safeOp vs op && safeOps today (memStep today vs op).2.tick ops

theorem step_equiv (today : PDate) {ms : MongoState} {vs : MemState}
    (h : Rel ms vs) (op : Op) (hs : safeOp vs op = true) :
    (mongoStep today ms op).1 = (memStep today vs op).1 ∧
    Rel (mongoStep today ms op).2.tick (memStep today vs op).2.tick := by
  cases op with
  | create uid p =>
    simp only [safeOp, Bool.and_eq_true] at hs
    have hc := create_corr h { p with user_id := uid } hs.1 hs.2
    unfold mongoStep memStep
    dsimp only
    simp only [hc.1]
    exact ⟨trivial, hc.2⟩
  | get uid id =>
    obtain ⟨r, hr, hv⟩ := mongoGet_corr h uid id
    unfold mongoStep memStep
    simp only [hr]
    exact ⟨congrArg Obs.entity hv, h.tick⟩
  | update uid id u =>
    have hsafe : ∀ e, memGetEvent vs uid id = some e →
        datesOk (applyUpdate e u).start_date (applyUpdate e u).end_date = true ∧
        (applyUpdate e u).start_date.valid = true := by
      intro e hg
      simp only [safeOp, hg, Bool.and_eq_true] at hs
      exact hs
    obtain ⟨r, hr, hv, hrel⟩ := update_corr h uid id u hsafe
    unfold mongoStep memStep
    dsimp only
    simp only [hr]
    exact ⟨congrArg Obs.entity hv, hrel⟩
  | delete uid id =>
    have hd := delete_corr h uid id
    unfold mongoStep memStep
    dsimp only
    exact ⟨congrArg Obs.deleted hd.1, hd.2⟩
  | list uid q =>
    have hq : q.sort_by ≠ SortBy.priority := by
      simpa [safeOp] using hs
    obtain ⟨l, hl, hviews, htot⟩ := list_corr h uid q hq
    unfold mongoStep memStep
    dsimp only
    simp only [hl]
    refine ⟨?_, h.tick⟩
    rw [hviews, htot]
  | overview uid =>
    have hso := of_decide_eq_true (by simpa [safeOp] using hs)
    unfold mongoStep memStep
    dsimp only
    exact ⟨congrArg Obs.overview (overview_corr h uid hso), h.tick⟩
  | financial uid ny =>
    have hsf := of_decide_eq_true (by simpa [safeOp] using hs)
    unfold mongoStep memStep
    dsimp only
    exact ⟨congrArg Obs.financial (financial_corr h today uid ny hsf), h.tick⟩

theorem run_equiv (today : PDate) : ∀ (ops : List Op) {ms : MongoState}
    {vs : MemState}, Rel ms vs → safeOps today vs ops = true →
    mongoRun today ms ops = memRun today vs ops := by
  intro ops
  induction ops with
  | nil =>
    intro ms vs _ _
    rfl
  | cons op ops ih =>
    intro ms vs h hs
    simp only [safeOps, Bool.and_eq_true] at hs
    have hstep := step_equiv today h op hs.1
    unfold mongoRun memRun
    dsimp only
    rw [hstep.1, ih hstep.2 hs.2]

theorem Rel.init : Rel MongoState.init MemState.init := by
  refine ⟨List.Forall₂.nil, List.nodup_nil, ?_, rfl, rfl⟩
  intro e he
  cases he

/-- C1: as stated, the adapters are not observationally equivalent on
every operation sequence: creating two same-priority events with
distinct start dates and listing them sorted by priority yields the
compound `(priority_rank, start_date)` order from the Mongo adapter but
bare insertion order from the volatile adapter. -/
theorem adapter_equivalence_counterexample :
    mongoRun ⟨2026, 1, 1⟩ MongoState.init
      [Op.create "rupa"
        { title := "A", category := "career", start_date := ⟨2028, 2, 1⟩ },
       Op.create "rupa"
        { title := "B", category := "career", start_date := ⟨2028, 1, 1⟩ },
       Op.list "rupa" { sort_by := SortBy.priority }] ≠
    memRun ⟨2026, 1, 1⟩ MemState.init
      [Op.create "rupa"
        { title := "A", category := "career", start_date := ⟨2028, 2, 1⟩ },
       Op.create "rupa"
        { title := "B", category := "career", start_date := ⟨2028, 1, 1⟩ },
       Op.list "rupa" { sort_by := SortBy.priority }] := by
  decide

/-- C1 (amended): starting from empty stores, the persistent and the
volatile adapter produce identical observation sequences on every
operation sequence that stays clear of the four divergences: every
create and update keeps its record date-consistent with a
calendar-valid start date, no list sorts by priority, overviews cover
at most 50 distinct timeline phases, and financial summaries cover at
most 2000 financial rows. -/
theorem adapter_equivalence_amended (today : PDate) (ops : List Op)
    (hs : safeOps today MemState.init ops = true) :
    mongoRun today MongoState.init ops = memRun today MemState.init ops :=
  run_equiv today ops Rel.init hs

theorem adapter_equivalence_amended_witness :
    safeOps ⟨2026, 1, 1⟩ MemState.init
      [Op.create "rupa"
        { title := "MSc", category := "education", start_date := ⟨2028, 9, 1⟩ },
       Op.get "rupa" 0,
       Op.update "rupa" 0 { status := some EventStatus.inProgress },
       Op.list "rupa" {},
       Op.overview "rupa",
       Op.financial "rupa" 5,
       Op.delete "rupa" 0,
       Op.get "rupa" 0] = true ∧
    mongoRun ⟨2026, 1, 1⟩ MongoState.init
      [Op.create "rupa"
        { title := "MSc", category := "education", start_date := ⟨2028, 9, 1⟩ },
       Op.get "rupa" 0,
       Op.update "rupa" 0 { status := some EventStatus.inProgress },
       Op.list "rupa" {},
       Op.overview "rupa",
       Op.financial "rupa" 5,
       Op.delete "rupa" 0,
       Op.get "rupa" 0] =
    memRun ⟨2026, 1, 1⟩ MemState.init
      [Op.create "rupa"
        { title := "MSc", category := "education", start_date := ⟨2028, 9, 1⟩ },
       Op.get "rupa" 0,
       Op.update "rupa" 0 { status := some EventStatus.inProgress },
       Op.list "rupa" {},
       Op.overview "rupa",
       Op.financial "rupa" 5,
       Op.delete "rupa" 0,
       Op.get "rupa" 0] :=
  ⟨by decide, adapter_equivalence_amended ⟨2026, 1, 1⟩ _ (by decide)⟩

end Sanchara
